import Mathlib

/-!
Shallow embedding of the decision-table compiler core (`src/dtc.c`) and
verification of the frozen claims about it.

Conventions of the embedding:
* A `sym_t` (immutable byte string) is a `List Nat` of its bytes; `symCmp`
  is the source's byte-wise comparison with length as final tiebreak, which
  on byte strings coincides with ordinary lexicographic comparison.
* Interning makes pointer identity coincide with value identity for
  symbols, names and values, so C pointer comparisons on those are modelled
  by structural equality.  An `inf_t` carries its source coordinates
  (`fil`, `row`) which do not take part in `infCmp`, exactly as in the
  source.
* libc `bsearch` on a sorted array is modelled by its contract: it returns
  a matching member iff one exists; presence-only uses become `List.any`.
* libc `qsort` sorts according to the given comparator with unspecified
  order among ties; it is modelled by a deterministic insertion sort
  agreeing with the comparator.
* Allocation failures are not modelled (allocation always succeeds);
  loops of the source whose termination is in question are given explicit
  fuel, and `none` results signal either fuel exhaustion or the source's
  own error paths, as noted at each definition.
-/

namespace DTC

/-- Bytes of a `sym_t`. -/
abbrev Sym := List Nat

/-- `symCmp` (dtc.c): byte-wise comparison up to the common length, then
length decides.  This is ordinary lexicographic order on byte lists. -/
def symCmp : Sym → Sym → Ordering
  | [], [] => .eq
  | [], _ :: _ => .lt
  | _ :: _, [] => .gt
  | a :: as, b :: bs => (compare a b).then (symCmp as bs)

/-- `val_t`: a (name, symbol) pair.  The name is identified by its symbol
(a `nam_t` wraps exactly one symbol); the `infs` field of independent
values is carried separately in `Graph.vi`. -/
structure Val where
  nam : Sym
  sym : Sym
  deriving DecidableEq, Repr

/-- `valCmp`: name first, then symbol. -/
def valCmp (a b : Val) : Ordering :=
  (symCmp a.nam b.nam).then (symCmp a.sym b.sym)

/-- `valsCmp`: element-wise comparison, shorter list first on a tie. -/
def valsCmp : List Val → List Val → Ordering
  | [], [] => .eq
  | [], _ :: _ => .lt
  | _ :: _, [] => .gt
  | a :: as, b :: bs => (valCmp a b).then (valsCmp as bs)

/-- `inf_t`: conclusion, sorted conditions, source file and row. -/
structure Inf where
  val : Val
  vals : List Val
  fil : Nat
  row : Nat
  deriving DecidableEq, Repr

/-- `infCmp`: conclusion then conditions; source coordinates ignored. -/
def infCmp (a b : Inf) : Ordering :=
  (valCmp a.val b.val).then (valsCmp a.vals b.vals)

/-- `infsCmp`: element-wise comparison of inference sequences. -/
def infsCmp : List Inf → List Inf → Ordering
  | [], [] => .eq
  | [], _ :: _ => .lt
  | _ :: _, [] => .gt
  | a :: as, b :: bs => (infCmp a b).then (infsCmp as bs)

/-- Presence of a value in a sorted value sequence: models
`bsearch(..., valsSchCmp)` used purely as a membership test. -/
def valMemB (v : Val) (l : List Val) : Bool :=
  l.any (fun e => valCmp v e = .eq)

/-! ### The sorted-add operation (`valsAdd` / `infsAdd`)

`valsAdd` and `infsAdd` in dtc.c share one algorithm: binary search for
the insertion position; on an equal element return it unchanged, else
shift and insert.  `binSearchIns` is that loop, `binAdd` the whole
operation, generic over the comparator. -/

/-- The `lo/hi` binary-search loop of `valsAdd`/`infsAdd`.  Returns
`.inl i` when the probe at `i` compared equal, `.inr lo` with the final
insertion position otherwise.  The loop shrinks `hi - lo` each round, so
the explicit fuel (any value above the initial `hi - lo`) never runs
out. -/
def binSearchIns (cmp : α → α → Ordering) (l : List α) (x : α) :
    Nat → Nat → Nat → Nat ⊕ Nat
  | 0, lo, _ => .inr lo
  | fuel + 1, lo, hi =>
    if lo < hi then
      let mid := lo + (hi - lo) / 2
      match cmp x (l.getD mid x) with
      | .eq => .inl mid
      | .lt => binSearchIns cmp l x fuel lo mid
      | .gt => binSearchIns cmp l x fuel (mid + 1) hi
    else .inr lo

/-- `valsAdd`/`infsAdd`: return the canonical element and the updated
sequence. -/
def binAdd (cmp : α → α → Ordering) (l : List α) (x : α) : α × List α :=
  match binSearchIns cmp l x (l.length + 1) 0 l.length with
  | .inl i => (l.getD i x, l)
  | .inr p => (x, l.take p ++ x :: l.drop p)

/-- `valsAdd` (dtc.c). -/
def valsAdd (l : List Val) (v : Val) : Val × List Val := binAdd valCmp l v

/-- `infsAdd` (dtc.c). -/
def infsAdd (l : List Inf) (i : Inf) : Inf × List Inf := binAdd infCmp l i

/-! ### Sorting (model of libc `qsort`) -/

/-- Insert into a list in front of the first element that is not `le`-below
the inserted one. -/
def insBy (le : α → α → Bool) (x : α) : List α → List α
  | [] => [x]
  | y :: ys => if le x y then x :: y :: ys else y :: insBy le x ys

/-- Deterministic insertion sort; models libc `qsort` with the given
comparator (whose order among comparator-ties is unspecified in C). -/
def sortBy (le : α → α → Bool) (l : List α) : List α :=
  l.foldr (insBy le) []

/-- `symsAdd` (dtc.c): `bsearch` for an equal symbol; if absent, append
and `qsort`.  The `bsearch` is modelled by its contract (finds a match
iff one exists on the sorted input). -/
def symsAdd (l : List Sym) (s : Sym) : Sym × List Sym :=
  match l.find? (fun e => symCmp s e = .eq) with
  | some e => (e, l)
  | none => (s, sortBy (fun a b => symCmp a b ≠ .gt) (l ++ [s]))

/-- `namsAdd` (dtc.c): same algorithm as `symsAdd` over the name registry;
a name is its symbol together with its owned value list. -/
def namsAdd (l : List (Sym × List Val)) (n : Sym × List Val) :
    (Sym × List Val) × List (Sym × List Val) :=
  match l.find? (fun e => symCmp n.1 e.1 = .eq) with
  | some e => (e, l)
  | none => (n, sortBy (fun a b => symCmp a.1 b.1 ≠ .gt) (l ++ [n]))

/-! ### The object graph

After loading and independence analysis the builder reads two pieces of
the object graph: each name's interned value list (`nam->vals`) and each
value's reachable-inference list (`val->infs`, null for dependent values,
modelled as `[]`). -/

structure Graph where
  namVals : Sym → List Val
  vi : Val → List Inf

/-! ### Resolution algebra (§ dtc.c lines 1009–1395) -/

/-- One round of `infsValTrnAdd`'s outer loop: for each frontier value
(in order) and each inference (in order) whose condition list is exactly
that one value, add the inference to the accumulator and its conclusion
to the next frontier. -/
def trnRound (infs : List Inf) (v1 : List Val) (r : List Inf) :
    List Inf × List Val :=
  v1.foldl
    (fun acc x =>
      infs.foldl
        (fun acc2 j =>
          if j.vals = [x] then
            ((infsAdd acc2.1 j).2, (valsAdd acc2.2 j.val).2)
          else acc2)
        acc)
    (r, [])

/-- The fuelled `for(;;)` loop of `infsValTrnAdd`: process the current
frontier, stop when the next frontier is empty, else swap and repeat.
`none` models the source looping beyond the given number of rounds (the
C loop has no bound and diverges on single-condition cycles). -/
def infsValTrnLoop : Nat → List Inf → List Val → List Inf → Option (List Inf)
  | 0, _, _, _ => none
  | fuel + 1, infs, v1, r =>
    let p := trnRound infs v1 r
    if p.2 = [] then some p.1 else infsValTrnLoop fuel infs p.2 p.1

/-- `infsValTrnAdd` (dtc.c): single-dependency transitive closure from
`val`, accumulating into `r`. -/
def infsValTrnAdd (fuel : Nat) (val : Val) (infs : List Inf)
    (r : List Inf) : Option (List Inf) :=
  infsValTrnLoop fuel infs [val] r

/-- The frontier (`v1`) of `infsValTrnAdd` at the start of round `n`;
it does not depend on the accumulator. -/
def trnFrontier (infs : List Inf) (val : Val) : Nat → List Val
  | 0 => [val]
  | n + 1 => (trnRound infs (trnFrontier infs val n) []).2

/-- `infsVal` (dtc.c): collect the inferences one of whose conditions is
`val`.  The worklist `v` of the source never grows (no conclusion is ever
added to it), so a single pass over `infs` results. -/
def infsVal (val : Val) (infs : List Inf) (r0 : List Inf) : List Inf :=
  infs.foldl (fun r j => if valMemB val j.vals then (infsAdd r j).2 else r) r0

/-- `namsInd` (dtc.c): the independent values (those that are the
conclusion of no inference, per `bsearch` with `infsValSchCmp`) paired
with the `val->infs` assignment made by the second loop (each independent
value gets `infsVal`; dependent values keep a null `infs`, modelled by
`none`).  Returns `none` on the source's error path (a duplicate
independent value). -/
def namsInd (nams : List (Sym × List Val)) (infs : List Inf) :
    Option (List Val × List (Val × List Inf)) := do
  let r ← nams.foldlM
    (fun (r : List Val) nv =>
      nv.2.foldlM
        (fun (r : List Val) v =>
          if infs.any (fun i => valCmp v i.val = .eq) then pure r
          else
            let p := valsAdd r v
            if p.1 = v then pure p.2 else none)
        r)
    []
  pure (r, r.map (fun v => (v, infsVal v infs [])))

/-- Look up `val->infs` in the assignment produced by `namsInd`; `none`
models a null `infs` field. -/
def viLookup (a : List (Val × List Inf)) (v : Val) : Option (List Inf) :=
  (a.find? (fun p => p.1 = v)).map Prod.snd

/-- `valsInfsCmp` (dtc.c): primary key is balance (smaller absolute
difference between the candidate's inference count and the sum over its
name's other values), secondary key is delay (larger minimum of the two
counts first). -/
def valsInfsCmp (g : Graph) (e1 e2 : Val) : Ordering :=
  let o1 := ((g.namVals e1.nam).filter (fun s => s ≠ e1)).foldl
    (fun a s => a + (g.vi s).length) 0
  let o2 := ((g.namVals e2.nam).filter (fun s => s ≠ e2)).foldl
    (fun a s => a + (g.vi s).length) 0
  let n1 := (g.vi e1).length
  let n2 := (g.vi e2).length
  let i1 := if n1 > o1 then n1 - o1 else o1 - n1
  let i2 := if n2 > o2 then n2 - o2 else o2 - n2
  if i1 < i2 then .lt
  else if i1 > i2 then .gt
  else
    let j1 := if n1 > o1 then o1 else n1
    let j2 := if n2 > o2 then o2 else n2
    if j1 > j2 then .lt else if j1 < j2 then .gt else .eq

/-- `valsSubValNam` (dtc.c): drop every value on the tested value's name,
keep those that appear in some condition of `infs`. -/
def valsSubValNam (vals : List Val) (val : Val) (infs : List Inf) :
    List Val :=
  vals.filter (fun v => v.nam ≠ val.nam && infs.any (fun j => valMemB v j.vals))

/-- `valsSubVal` (dtc.c): drop `val` itself, keep values appearing in some
condition of `infs`, counting the kept values sharing `val`'s name; if
exactly one such value remains, filter the name out entirely. -/
def valsSubVal (vals : List Val) (val : Val) (infs : List Inf) : List Val :=
  let p := vals.foldl
    (fun (acc : List Val × Nat) v =>
      if v ≠ val && infs.any (fun k => valMemB v k.vals) then
        (acc.1 ++ [v], if v.nam = val.nam then acc.2 + 1 else acc.2)
      else acc)
    ([], 0)
  if p.2 = 1 then p.1.filter (fun v => v.nam ≠ val.nam) else p.1

/-- The per-inference acceptance test inside `infsResVal`: every condition
other than `val` must be outside the remaining `vals`, and no inference of
`infs` concluding that condition may still have a condition in `vals`. -/
def infsResValOk (vals : List Val) (infs : List Inf) (val : Val)
    (i : Inf) : Bool :=
  i.vals.all (fun ck =>
    ck = val ||
      (!valMemB ck vals &&
        infs.all (fun m =>
          m.val ≠ ck || m.vals.all (fun c => !valMemB c vals))))

/-- The sorted-merge intersection of `infsResVal`, keeping the common
elements that pass `keep`.  The fuel (any value above the sum of the two
lengths) never runs out. -/
def infsResValGo (keep : Inf → Bool) : Nat → List Inf → List Inf → List Inf
  | 0, _, _ => []
  | _ + 1, [], _ => []
  | _ + 1, _ :: _, [] => []
  | fuel + 1, a :: as, b :: bs =>
    match infCmp a b with
    | .lt => infsResValGo keep fuel as (b :: bs)
    | .gt => infsResValGo keep fuel (a :: as) bs
    | .eq =>
      if keep a then a :: infsResValGo keep fuel as bs
      else infsResValGo keep fuel as bs

/-- `infsResVal` (dtc.c): inferences resolved by `val` and not
transitively dependent on the remaining `vals`. -/
def infsResVal (g : Graph) (vals : List Val) (infs : List Inf)
    (val : Val) : List Inf :=
  infsResValGo (infsResValOk vals infs val)
    (infs.length + (g.vi val).length + 1) infs (g.vi val)

/-- `infsResValNam` (dtc.c): fold `infsResVal` over the other values of
`val`'s name that are still in `vals`, feeding each result into the next
call; an untouched accumulator yields the empty sequence. -/
def infsResValNam (g : Graph) (vals : List Val) (infs : List Inf)
    (val : Val) : List Inf :=
  ((g.namVals val.nam).foldl
    (fun (r : Option (List Inf)) s =>
      if s = val then r
      else if !valMemB s vals then r
      else some (infsResVal g vals (r.getD infs) s))
    none).getD []

/-- The merge loop of `infsMnsInfs`; the fuel (above the sum of the two
lengths) never runs out. -/
def infsMnsGo : Nat → List Inf → List Inf → List Inf
  | 0, _, _ => []
  | _ + 1, [], _ => []
  | _ + 1, a :: as, [] => a :: as
  | fuel + 1, a :: as, b :: bs =>
    match infCmp a b with
    | .lt => a :: infsMnsGo fuel as (b :: bs)
    | .gt => infsMnsGo fuel (a :: as) bs
    | .eq => infsMnsGo fuel as bs

/-- `infsMnsInfs` (dtc.c): ordered difference of sorted inference
sequences. -/
def infsMnsInfs (l1 l2 : List Inf) : List Inf :=
  infsMnsGo (l1.length + l2.length + 1) l1 l2

/-- `infsSrpInfs` (dtc.c): strip from `l1` every inference whose
conclusion also concludes in `l2`, or one of whose conditions shares a
name with a conclusion of `l2` without being that conclusion. -/
def infsSrpInfs (l1 l2 : List Inf) : List Inf :=
  l1.filter (fun i =>
    !(l2.any (fun e => valCmp i.val e.val = .eq)) &&
      i.vals.all (fun c =>
        l2.all (fun k => !(c ≠ k.val && c.nam = k.val.nam))))

/-! ### Tree nodes and the builder (`nodBld`, dtc.c lines 1399–1997) -/

/-- `nod_t`.  The `id` field models the node's allocation identity (its C
pointer); the emitter compares and marks nodes by identity.  `d` is the
depth field; the mutable `lbl` is kept in the emitter state instead. -/
inductive Nod where
  | mk (id : Nat) (val : Option Val) (infsV infsO : Option (List Inf))
      (nodV nodO : Option Nod) (d : Nat)
  deriving Repr

def Nod.id : Nod → Nat
  | .mk i _ _ _ _ _ _ => i

def Nod.val : Nod → Option Val
  | .mk _ v _ _ _ _ _ => v

def Nod.infsV : Nod → Option (List Inf)
  | .mk _ _ iV _ _ _ _ => iV

def Nod.infsO : Nod → Option (List Inf)
  | .mk _ _ _ iO _ _ _ => iO

def Nod.nodV : Nod → Option Nod
  | .mk _ _ _ _ nV _ _ => nV

def Nod.nodO : Nod → Option Nod
  | .mk _ _ _ _ _ nO _ => nO

def Nod.d : Nod → Nat
  | .mk _ _ _ _ _ _ d => d

/-- `nodNew()` as allocated by `bldNew`: all fields zero. -/
def emptyNod (id : Nat) : Nod := .mk id none none none none none 0

/-- The leaf fix-up of `nodBld` (`bld->nod->infsV = infsRefDup(infs)`). -/
def Nod.setInfsV : Nod → List Inf → Nod
  | .mk i v _ iO nV nO d, l => .mk i v (some l) iO nV nO d

/-- A memoization entry (`bld_t`): the frontier pair and its node. -/
abbrev Bld := List Val × List Inf × Nod

/-- Builder state: the memoization store and the allocation counter that
hands out node identities. -/
structure BSt where
  blds : List Bld
  ctr : Nat

/-- `bldCmp` on the frontier key. -/
def bldCmp (a : List Val × List Inf) (e : Bld) : Ordering :=
  (valsCmp a.1 e.1).then (infsCmp a.2 e.2.1)

/-- `bldsFnd` (dtc.c): `bsearch` over the sorted store, modelled by its
contract. -/
def bldsFnd (blds : List Bld) (vals : List Val) (infs : List Inf) :
    Option Nod :=
  (blds.find? (fun e => bldCmp (vals, infs) e = .eq)).map (fun e => e.2.2)

/-- The position loop of `bldsAdd`: like `binSearchIns` but an equal
probe continues to the right (the store is never probed for a present
key before adding).  Fuel as in `binSearchIns`. -/
def binInsPos (cmp : α → α → Ordering) (l : List α) (x : α) :
    Nat → Nat → Nat → Nat
  | 0, lo, _ => lo
  | fuel + 1, lo, hi =>
    if lo < hi then
      let mid := lo + (hi - lo) / 2
      match cmp x (l.getD mid x) with
      | .lt => binInsPos cmp l x fuel lo mid
      | _ => binInsPos cmp l x fuel (mid + 1) hi
    else lo

/-- `bldsAdd` (dtc.c): insert the entry at its binary-searched position. -/
def bldsAdd (blds : List Bld) (b : Bld) : List Bld :=
  let p := binInsPos (fun x e => bldCmp (x.1, x.2.1) e) blds b
    (blds.length + 1) 0 blds.length
  blds.take p ++ b :: blds.drop p

/-- The inner `j` loop of `nodBld` inflating `nV`/`nO`: walk the list
while `infsValTrnAdd` grows it in place (insertions shift the array
exactly as the C `memmove` does).  `tf` is the fuel handed to each
`infsValTrnAdd` call (whose loop the source runs unbounded). -/
def trnLoopJ (tf : Nat) : Nat → List Inf → Nat → List Inf → Option (List Inf)
  | 0, _, _, _ => none
  | fuel + 1, infs, j, cur =>
    if h : j < cur.length then
      match infsValTrnAdd tf (cur.get ⟨j, h⟩).val infs cur with
      | none => none
      | some cur2 => trnLoopJ tf fuel infs (j + 1) cur2
    else some cur

/-- Run the `j` loop with enough fuel for the sorted, deduplicated list
(it never grows past the distinct inferences available). -/
def trnInflate (tf : Nat) (infs cur : List Inf) : Option (List Inf) :=
  trnLoopJ tf (cur.length + infs.length + 1) infs 0 cur

/-- Outcome of evaluating one candidate in `nodBld`'s loop: skipped by a
created-but-empty child frontier, skipped because no child bears a test,
skipped because the depth exceeds the running bound, or a complete
candidate node. -/
inductive COut where
  | emptyFrontier
  | noTestChild
  | overBound (d bd : Nat)
  | ok (n : Nod)
  deriving Repr

/-- The depth computation of `nodBld` (lines 1946–1957): `none` is the
`continue` of the final `else` (a child exists but none bears a test). -/
def dCalc : Option Nod → Option Nod → Option Nat
  | some a, some b =>
    if a.val.isSome ∧ b.val.isSome then some (1 + max a.d b.d) else none
  | some a, none => if a.val.isSome then some (1 + a.d) else none
  | none, some b => if b.val.isSome then some (1 + b.d) else none
  | none, none => some 0

/-- The conclusion-inflation step of one candidate: an empty resolved
set stays a null pointer, otherwise `infsValTrnAdd` is run over it (its
divergence is the outer `none`). -/
def inflOpt (tf : Nat) (infs cur : List Inf) : Option (Option (List Inf)) :=
  if cur = [] then pure none else (trnInflate tf infs cur).map some

/-- The guarded recursive call of one candidate: a null frontier means
no child on that branch, otherwise `nodBld` recurses. -/
def childOpt (child : List Val → List Inf → Nat → BSt → Option (Nod × BSt))
    (fr : Option (List Val)) (i : List Inf) (bd : Nat) (st : BSt) :
    Option (Option Nod × BSt) :=
  match fr with
  | some f => (child f i bd st).map (fun p => (some p.1, p.2))
  | none => pure (none, st)

/-- Evaluate one candidate `c` of `nodBld`'s loop body (lines 1807–1964).
`child` performs the recursive `nodBld` calls.  `none` is the source's
error exit (which aborts the whole build), including divergence of
`infsValTrnAdd`. -/
def candStep (g : Graph) (tf : Nat)
    (child : List Val → List Inf → Nat → BSt → Option (Nod × BSt))
    (vals : List Val) (infs : List Inf) (bd : Nat) (c : Val) (st : BSt) :
    Option (COut × BSt) := do
  let rid := st.ctr
  let st := BSt.mk st.blds (st.ctr + 1)
  let nV0 := infsResVal g vals infs c
  let nO0 := infsResValNam g vals infs c
  let iV : Option (List Inf) ← inflOpt tf infs nV0
  let iO : Option (List Inf) ← inflOpt tf infs nO0
  let dV : List Inf ←
    (g.namVals c.nam).foldl
      (fun (acc : Option (List Inf)) s =>
        if s = c then acc
        else some (infsMnsInfs (acc.getD infs) (g.vi s)))
      none
  let dO0 := infsMnsInfs infs (g.vi c)
  let dV2 := if dV ≠ [] ∧ iV.isSome then infsSrpInfs dV (iV.getD []) else dV
  let dO2 := if dO0 ≠ [] ∧ iO.isSome then infsSrpInfs dO0 (iO.getD []) else dO0
  let fV : Option (List Val) :=
    if dV2 ≠ [] then some (valsSubValNam vals c dV2) else none
  let fO : Option (List Val) :=
    if dO2 ≠ [] then some (valsSubVal vals c dO2) else none
  if fV = some [] ∨ fO = some [] then
    pure (.emptyFrontier, st)
  else do
    let pV : Option Nod × BSt ← childOpt child fV dV2 bd st
    let pO : Option Nod × BSt ← childOpt child fO dO2 bd pV.2
    let st2 := pO.2
    match dCalc pV.1 pO.1 with
    | none => pure (.noTestChild, st2)
    | some d =>
      if d > bd then pure (.overBound d bd, st2)
      else pure (.ok (Nod.mk rid (some c) iV iO pV.1 pO.1 d), st2)

/-- The candidate loop of `nodBld` (lines 1807–1973), additionally
recording each evaluated candidate's `COut` verbatim.  `best`/`bd` are
`bld->nod` and the running bound; installation, bound tightening and the
quick/zero-depth break follow the source. -/
def nodBldGo (g : Graph) (tf : Nat)
    (child : List Val → List Inf → Nat → BSt → Option (Nod × BSt))
    (vals : List Val) (infs : List Inf) (q : Bool) :
    List Val → Nod → Nat → BSt → Option (Nod × BSt × List COut)
  | [], best, _, st => some (best, st, [])
  | c :: rest, best, bd, st => do
    let (out, st2) ← candStep g tf child vals infs bd c st
    match out with
    | .ok r =>
      if best.val = none ∨ r.d < best.d then
        if q ∨ r.d = 0 then some (r, st2, [out])
        else
          (nodBldGo g tf child vals infs q rest r r.d st2).map
            (fun p => (p.1, p.2.1, out :: p.2.2))
      else
        (nodBldGo g tf child vals infs q rest best bd st2).map
          (fun p => (p.1, p.2.1, out :: p.2.2))
    | _ =>
      (nodBldGo g tf child vals infs q rest best bd st2).map
        (fun p => (p.1, p.2.1, out :: p.2.2))

/-- `nodBld` (dtc.c), with explicit fuel bounding the recursion depth:
memoization lookup, candidate loop over the `valsInfsCmp`-sorted copy of
`vals`, leaf fix-up, store insertion. -/
def nodBldF (g : Graph) (tf : Nat) :
    Nat → List Val → List Inf → Nat → Bool → BSt → Option (Nod × BSt)
  | 0, _, _, _, _, _ => none
  | fuel + 1, vals, infs, bd, q, st =>
    match bldsFnd st.blds vals infs with
    | some nod => some (nod, st)
    | none =>
      let best0 := emptyNod st.ctr
      let st1 := BSt.mk st.blds (st.ctr + 1)
      let cands := sortBy (fun a b => valsInfsCmp g a b ≠ .gt) vals
      match nodBldGo g tf (fun v i b s => nodBldF g tf fuel v i b q s)
          vals infs q cands best0 bd st1 with
      | none => none
      | some (r, st2, _) =>
        let r2 := if r.val = none then r.setInfsV infs else r
        some (r2, BSt.mk (bldsAdd st2.blds (vals, infs, r2)) st2.ctr)

/-! ### Consistency check (`infsChk` / `nodChk`, dtc.c lines 1519–1568) -/

/-- A diagnostic written to the error stream. -/
inductive Diag where
  | fewVals (nam : Sym)
  | noDeps (fil row : Nat)
  | noIndep
  | depVal (nam sym : Sym)
  | unresolvable (nam symI : Sym) (filI rowI : Nat) (symJ : Sym)
      (filJ rowJ : Nat)
  | loadErr
  | buildFail
  deriving DecidableEq, Repr

/-- `infsChk` (dtc.c): report every pair `i < j` whose conclusions share
a name but differ in value, citing both source coordinates; the source's
return flag is `≠ []` of this list. -/
def infsChk : List Inf → List Diag
  | [] => []
  | x :: rest =>
    (rest.filter (fun y => x.val.nam = y.val.nam && x.val ≠ y.val)).map
        (fun y =>
          .unresolvable x.val.nam x.val.sym x.fil x.row y.val.sym y.fil y.row)
      ++ infsChk rest

/-- `nodChk` (dtc.c): fold `infsChk` over every `infsV`/`infsO` bucket of
the tree.  The fuel bounds the recursion depth; any value above the tree
depth (which is bounded by the initial frontier size, since every level
strictly shrinks the frontier) never runs out. -/
def nodChkF : Nat → Nod → List Diag
  | 0, _ => []
  | fuel + 1, .mk _ _ iV iO nV nO _ =>
    infsChk (iV.getD []) ++ infsChk (iO.getD [])
      ++ (match nV with | some a => nodChkF fuel a | none => [])
      ++ (match nO with | some a => nodChkF fuel a | none => [])

/-- The nodes of a tree, to the given depth; `nodChkF` visits exactly the
buckets of `nodesF`. -/
def nodesF : Nat → Nod → List Nod
  | 0, _ => []
  | fuel + 1, n =>
    n :: ((match n.nodV with | some a => nodesF fuel a | none => [])
      ++ (match n.nodO with | some a => nodesF fuel a | none => []))

/-! ### Emitter (`outNod` and friends, dtc.c lines 2001–2142) -/

/-- One line of the emitted listing. -/
inductive Line where
  | D (n : Nat)
  | I (nam sym : Sym)
  | O (nam sym : Sym)
  | T (nam sym : Sym) (l : Nat)
  | R (nam sym : Sym)
  | L (n : Nat)
  | J (n : Nat)
  deriving DecidableEq, Repr

/-- Emitter state: the branch table `out->b` (branch infs, branch node
identity — a null pointer for terminal branches — and label), the label
counter `out->l`, and the write-once `nod->lbl` fields as a map from node
identity. -/
structure OutSt where
  b : List (Option (List Inf) × Option Nat × Nat)
  l : Nat
  lbl : List (Nat × Nat)

/-- `outCmp` (dtc.c), as an equality test: both null, or same length and
element-wise equal conclusion values. -/
def outCmpB : Option (List Inf) → Option (List Inf) → Bool
  | none, none => true
  | some x, some y =>
    x.length = y.length &&
      (x.zip y).all (fun p => valCmp p.1.val p.2.val = .eq)
  | _, _ => false

/-- `outBrnLbl` (dtc.c): find the branch in the table (same node
identity, `outCmp`-equal infs) or reserve a fresh label for it. -/
def outBrnLbl (st : OutSt) (infs : Option (List Inf)) (nid : Option Nat) :
    Nat × Bool × OutSt :=
  match st.b.find? (fun e => e.2.1 = nid && outCmpB e.1 infs) with
  | some e => (e.2.2, true, st)
  | none =>
    (st.l, false, OutSt.mk (st.b ++ [(infs, nid, st.l)]) (st.l + 1) st.lbl)

/-- A pending emission task: a node (`outNod`), a branch (`outBrn`), or
a branch's content (`outBrnCon`). -/
inductive OutTask where
  | nod (n : Nod)
  | brn (infs : Option (List Inf)) (n : Option Nod)
  | brnCon (infs : Option (List Inf)) (n : Option Nod)

/-- `outNod` / `outBrn` / `outBrnCon` (dtc.c), merged into one function
so the recursion is structural on its fuel (the call depth is bounded by
three frames per tree level, the fuel passed by the driver exceeds that).

`outNod`: emit a jump when the node was already visited (its `lbl` is
set); otherwise set `lbl` to the current label counter and emit the node:
a leaf records its conclusions; a test node reserves the test-true
branch label, emits the test, the fall-through branch, and (unless the
true branch was a duplicate) its label and content.
`outBrn`: branch emission with deduplication.
`outBrnCon`: the branch's recorded conclusions, then its node or a jump
to the end label. -/
def outRun : Nat → OutTask → OutSt → OutSt × List Line
  | 0, _, st => (st, [])
  | fuel + 1, .nod nod, st =>
    (match st.lbl.find? (fun p => p.1 = nod.id) with
    | some p => (st, [.J p.2])
    | none =>
      let st := OutSt.mk st.b st.l ((nod.id, st.l) :: st.lbl)
      match nod.val with
      | none =>
        (st, (nod.infsV.getD []).map (fun i => .R i.val.nam i.val.sym))
      | some v =>
        let t := outBrnLbl st nod.infsV (nod.nodV.map Nod.id)
        let po := outRun fuel (.brn nod.infsO nod.nodO) t.2.2
        if t.2.1 then
          (po.1, .T v.nam v.sym t.1 :: po.2)
        else
          let pv := outRun fuel (.brnCon nod.infsV nod.nodV) po.1
          (pv.1, .T v.nam v.sym t.1 :: po.2 ++ .L t.1 :: pv.2))
  | fuel + 1, .brn infs nod, st =>
    let t := outBrnLbl st infs (nod.map Nod.id)
    if t.2.1 then (t.2.2, [.J t.1])
    else
      let p := outRun fuel (.brnCon infs nod) t.2.2
      (p.1, .L t.1 :: p.2)
  | fuel + 1, .brnCon infs nod, st =>
    let rs := (infs.getD []).map (fun i => Line.R i.val.nam i.val.sym)
    match nod with
    | some n =>
      let p := outRun fuel (.nod n) st
      (p.1, rs ++ p.2)
    | none => (st, rs ++ [.J 0])

/-! ### Loader (`csvCb`, dtc.c lines 804–974)

A CSV file is modelled at cell level as a list of rows of decoded byte
strings (the CSV codec is an external collaborator).  `csvTp_Cb` begins a
row, `csvTp_Cv` delivers each cell, `csvTp_Ce` ends the row and interns
any pending inference. -/

structure LoadSt where
  nams : List (Sym × List Val)
  infs : List Inf
  col : List Sym

/-- Update the value list owned by the name with symbol `s`. -/
def namsUpd (nams : List (Sym × List Val)) (s : Sym)
    (f : List Val → List Val) : List (Sym × List Val) :=
  nams.map (fun e => if e.1 = s then (e.1, f e.2) else e)

/-- Per-row cell state: the load state, the pending inference of a data
row, and the `inCom`/`inNam` flags. -/
abbrev RowSt := LoadSt × Option Inf × Bool × Bool

/-- Process one header cell carrying name symbol `s` (the `V->inNam`
branch of `csvCb`): intern the name and extend the column map, rejecting
a duplicate name within the row. -/
def loadNamCell (s : Sym) (st : LoadSt) : Option LoadSt :=
  let p := namsAdd st.nams (s, [])
  if st.col.any (fun e => e = s) then none
  else some (LoadSt.mk p.2 st.infs (st.col ++ [s]))

/-- Process one cell of a row (the `csvTp_Cv` case of `csvCb`).  `none`
is any of the source's error returns; reading past the column map (which
the source does when a data row has exactly one cell more than the
header) is undefined behavior in C and also maps to `none`. -/
def loadCell (fil row c : Nat) (cell : Sym) : RowSt → Option RowSt
  | (st, pend, inCom, inNam) =>
    if inCom then some (st, pend, inCom, inNam)
    else if cell = [] then
      if inNam then none
      else if c = 0 then none
      else some (st, pend, inCom, inNam)
    else if c = 0 && cell.head? = some 35 then
      some (st, pend, true, inNam)
    else if c = 0 && cell.head? = some 64 then
      if cell.length < 2 then none
      else
        (loadNamCell (cell.drop 1) (LoadSt.mk st.nams st.infs [])).map
          (fun st2 => (st2, pend, inCom, true))
    else if inNam then
      (loadNamCell cell st).map (fun st2 => (st2, pend, inCom, inNam))
    else if c > st.col.length then none
    else
      match st.col.get? c with
      | none => none
      | some nsym =>
        let val := Val.mk nsym cell
        let st2 := LoadSt.mk
          (namsUpd st.nams nsym (fun vl => (valsAdd vl val).2)) st.infs st.col
        if c = 0 then
          some (st2, some (Inf.mk val [] fil row), inCom, inNam)
        else
          match pend with
          | none => none
          | some inf =>
            let q := valsAdd inf.vals val
            if q.1 ≠ val then none
            else some (st2, some (Inf.mk inf.val q.2 inf.fil inf.row),
              inCom, inNam)

/-- Process the cells of one row left to right. -/
def loadCells (fil row : Nat) : Nat → List Sym → RowSt → Option RowSt
  | _, [], acc => some acc
  | c, cell :: rest, acc => do
    let acc2 ← loadCell fil row c cell acc
    loadCells fil row (c + 1) rest acc2

/-- Process one row: its cells, then the `csvTp_Ce` finalization that
interns the pending inference, rejecting a duplicate (an `infCmp`-equal
inference from other source coordinates). -/
def loadRow (fil row : Nat) (cells : List Sym) (st : LoadSt) :
    Option LoadSt := do
  let (st2, pend, _, _) ← loadCells fil row 0 cells (st, none, false, false)
  match pend with
  | none => pure st2
  | some inf =>
    let p := infsAdd st2.infs inf
    if p.1 = inf then pure (LoadSt.mk st2.nams p.2 st2.col)
    else none

/-- Load one file (rows are reported 1-based). -/
def loadFile (fil : Nat) (rows : List (List Sym)) (st : LoadSt) :
    Option LoadSt :=
  rows.enum.foldlM (fun s p => loadRow fil (p.1 + 1) p.2 s) st

/-- Load a sequence of files into one object graph. -/
def loadFiles (files : List (List (List Sym))) : Option LoadSt :=
  files.enum.foldlM (fun s p => loadFile p.1 p.2 s) (LoadSt.mk [] [] [])

/-! ### The driver (`main`, dtc.c lines 2146–2313) -/

/-- Result of a run: the stdout lines, the stderr diagnostics relevant to
the claims, and the built tree when the run got that far. -/
structure MainOut where
  out : List Line
  diags : List Diag
  tree : Option Nod

/-- The `O` lines of `main`: one per distinct conclusion value, skipping
an inference whose conclusion equals the previous one's. -/
def oLines : List Inf → List Line
  | [] => []
  | i :: rest =>
    Line.O i.val.nam i.val.sym ::
      (oLinesGo i rest)
where
  oLinesGo (prev : Inf) : List Inf → List Line
  | [] => []
  | i :: rest =>
    if i.val = prev.val then oLinesGo i rest
    else Line.O i.val.nam i.val.sym :: oLinesGo i rest

/-- `main` (dtc.c): load, validate, analyse independence, print the `I`
and `O` lines, build the tree, run `nodChk`, and emit the listing. -/
def mainRun (files : List (List (List Sym))) (q : Bool) : MainOut :=
  match loadFiles files with
  | none => MainOut.mk [] [.loadErr] none
  | some ld =>
    let dFew := (ld.nams.filter (fun e => e.2.length < 2)).map
      (fun e => Diag.fewVals e.1)
    let dDeps := (ld.infs.filter (fun i => i.vals = [])).map
      (fun i => Diag.noDeps i.fil i.row)
    if dFew ++ dDeps ≠ [] then MainOut.mk [] (dFew ++ dDeps) none
    else
      match namsInd ld.nams ld.infs with
      | none => MainOut.mk [] [.noIndep] none
      | some (ind, via0) =>
        if ind = [] then MainOut.mk [] [.noIndep] none
        else
          let namValsF := fun s =>
            ((ld.nams.find? (fun e => e.1 = s)).map Prod.snd).getD []
          let dDep := ind.foldl
            (fun acc v =>
              acc ++ ((namValsF v.nam).filter
                  (fun w => (viLookup via0 w).isNone)).map
                (fun w => Diag.depVal v.nam w.sym))
            []
          if dDep ≠ [] then MainOut.mk [] dDep none
          else
            let iLines := ind.map (fun v => Line.I v.nam v.sym)
            let ioLines := iLines ++ oLines ld.infs
            let g := Graph.mk namValsF
              (fun v => (viLookup via0 v).getD [])
            match nodBldF g (ld.infs.length + 1) (ind.length + 1) ind
                ld.infs ind.length q (BSt.mk [] 0) with
            | none => MainOut.mk ioLines [.buildFail] none
            | some (nod, _) =>
              let dchk := nodChkF (ind.length + 2) nod
              if dchk ≠ [] then MainOut.mk ioLines dchk (some nod)
              else
                let body := outRun (3 * (ind.length + 2) + 3) (.nod nod)
                  (OutSt.mk [] 1 [])
                MainOut.mk
                  (ioLines ++ Line.D (nod.d + 1) :: body.2 ++ [Line.L 0])
                  [] (some nod)

/-! ### Spec-side definitions (used to compare code against claim text)
and concrete instances for counterexamples and witnesses -/

/-- Claim C5's wording of `valsSubVal`: drop `t`, keep the values whose
NAME appears in some condition of `infs`, then collapse a single
remaining value under `t`'s name.  (The source keeps a value only when
the value ITSELF appears in a condition — see `valsSubVal`.) -/
def valsSubValNameFilter (vals : List Val) (t : Val) (infs : List Inf) :
    List Val :=
  let r := (vals.filter (fun v => v ≠ t)).filter
    (fun v => infs.any (fun k => k.vals.any (fun c => c.nam = v.nam)))
  if (r.filter (fun v => v.nam = t.nam)).length = 1 then
    r.filter (fun v => v.nam ≠ t.nam)
  else r

/-- The declarative form of what `valsSubVal` computes (the amended
claim C5): a value-membership filter followed by the single-sibling
collapse. -/
def valsSubValValueFilter (vals : List Val) (t : Val) (infs : List Inf) :
    List Val :=
  let r := vals.filter
    (fun v => v ≠ t && infs.any (fun k => valMemB v k.vals))
  if (r.filter (fun v => v.nam = t.nam)).length = 1 then
    r.filter (fun v => v.nam ≠ t.nam)
  else r

/-- C5 counterexample data: values `A=1`, `A=2`, `B=1` with tested value
`A=1`, and one reduced inference whose conditions are `A=2` and `B=2`. -/
def c5vals : List Val := [Val.mk [65] [49], Val.mk [65] [50], Val.mk [66] [49]]

def c5t : Val := Val.mk [65] [49]

def c5infs : List Inf :=
  [Inf.mk (Val.mk [67] [49]) [Val.mk [65] [50], Val.mk [66] [50]] 0 2]

/-- C2 counterexample data: a two-step chain.  `P` has the single value
`P=1` (never concluded, hence independent); `B=y` is concluded from
`P=1`; `C=z` is concluded from `B=y`. -/
def c2P1 : Val := Val.mk [80] [49]

def c2By : Val := Val.mk [66] [121]

def c2Cz : Val := Val.mk [67] [122]

def c2i1 : Inf := Inf.mk c2By [c2P1] 0 2

def c2i2 : Inf := Inf.mk c2Cz [c2By] 0 3

def c2infs : List Inf := [c2i1, c2i2]

def c2nams : List (Sym × List Val) :=
  [([66], [c2By]), ([67], [c2Cz]), ([80], [c2P1])]

/-- C10/C9 counterexample data: a single-condition cycle.
`A=x` implies `B=y` and `B=y` implies `A=x`; `infsValTrnAdd` started at
`A=x` alternates between the frontiers `{B=y}` and `{A=x}` forever. -/
def cycAx : Val := Val.mk [65] [120]

def cycBy : Val := Val.mk [66] [121]

def cycI1 : Inf := Inf.mk cycBy [cycAx] 0 2

def cycI2 : Inf := Inf.mk cycAx [cycBy] 0 3

def cycInfs : List Inf := [cycI2, cycI1]

/-- C9 counterexample data: the cycle of `cycInfs` reached from a build
frontier.  Testing `P=1` resolves `c9j1 : A=x ⇐ P=1`; inflating its
conclusion `A=x` runs `infsValTrnAdd` into the `A=x`/`B=y` cycle, so the
candidate loop of `nodBld` never finishes its first candidate. -/
def c9P1 : Val := Val.mk [80] [49]

def c9j1 : Inf := Inf.mk cycAx [c9P1] 0 1

def c9Infs : List Inf := [cycI2, c9j1, cycI1]

def c9g : Graph :=
  Graph.mk
    (fun s =>
      if s = [80] then [c9P1]
      else if s = [65] then [cycAx]
      else if s = [66] then [cycBy] else [])
    (fun v => if v = c9P1 then [c9j1] else [])

/-- C9 witness data: an acyclic instance (`B=y ⇐ P=1`, `B=y2 ⇐ P=2`)
on which the builder succeeds. -/
def w9P1 : Val := Val.mk [80] [49]

def w9P2 : Val := Val.mk [80] [50]

def w9By : Val := Val.mk [66] [121]

def w9By2 : Val := Val.mk [66] [121, 50]

def w9k1 : Inf := Inf.mk w9By [w9P1] 0 1

def w9k2 : Inf := Inf.mk w9By2 [w9P2] 0 2

def w9infs : List Inf := [w9k1, w9k2]

def w9g : Graph :=
  Graph.mk
    (fun s =>
      if s = [80] then [w9P1, w9P2]
      else if s = [66] then [w9By, w9By2] else [])
    (fun v =>
      if v = w9P1 then [w9k1] else if v = w9P2 then [w9k2] else [])

/-- C4 counterexample input, as cell bytes of one CSV file: the table
`@P,X,Y,Z` (with `P = X`, don't-care `Z`) followed by `@Q,X,Y,Z` (with
`Q = not Y`, don't-care `Z`).  On this input the emitter reaches a node
first with both branches already emitted (so no label is allocated for
it) and later jumps to that unallocated label. -/
def cex4Rows : List (List Sym) :=
  [[[64, 80], [88], [89], [90]],
   [[48], [48], [], [48]],
   [[49], [49], [], [48]],
   [[48], [48], [], [49]],
   [[49], [49], [], [49]],
   [[64, 81], [88], [89], [90]],
   [[49], [], [48], [48]],
   [[48], [], [49], [48]],
   [[49], [], [48], [49]],
   [[48], [], [49], [49]]]

/-- Worst-case number of tests on a root-to-leaf path of a built tree:
a node without a test value contributes nothing, a test node counts
itself plus the worst of its branches. -/
def tdepth : Nod → Nat
  | .mk _ none _ _ _ _ _ => 0
  | .mk _ (some _) _ _ nV nO _ =>
    1 + max (match nV with | some a => tdepth a | none => 0)
            (match nO with | some b => tdepth b | none => 0)

/-- Shape invariant of nodes built by `nodBld`: a value-less node is a
childless leaf of depth 0, and a test node's `d` field follows the
`dCalc` formula over its present children, which all bear tests. -/
inductive WfN : Nod → Prop
  | leaf (id : Nat) (iV iO : Option (List Inf)) :
      WfN (Nod.mk id none iV iO none none 0)
  | tip (id : Nat) (c : Val) (iV iO : Option (List Inf)) :
      WfN (Nod.mk id (some c) iV iO none none 0)
  | onlyV (id : Nat) (c : Val) (iV iO : Option (List Inf)) (a : Nod) :
      WfN a → a.val.isSome = true →
      WfN (Nod.mk id (some c) iV iO (some a) none (1 + a.d))
  | onlyO (id : Nat) (c : Val) (iV iO : Option (List Inf)) (b : Nod) :
      WfN b → b.val.isSome = true →
      WfN (Nod.mk id (some c) iV iO none (some b) (1 + b.d))
  | both (id : Nat) (c : Val) (iV iO : Option (List Inf)) (a b : Nod) :
      WfN a → WfN b → a.val.isSome = true → b.val.isSome = true →
      WfN (Nod.mk id (some c) iV iO (some a) (some b) (1 + max a.d b.d))

/-- Every node stored in the memoization table satisfies `WfN`. -/
def StWf (st : BSt) : Prop := ∀ b ∈ st.blds, WfN b.2.2

/-- The spec's worked example: `@A,B` / `x,1` / `y,2`. -/
def c3Rows : List (List Sym) :=
  [[[64, 65], [66]], [[120], [49]], [[121], [50]]]

/-- The tree `mainRun` builds for `c3Rows`: a single test on `B=1` with
the two conclusions held in `infsV`/`infsO`. -/
def nodC3 : Nod :=
  Nod.mk 1 (some (Val.mk [66] [49]))
    (some [Inf.mk (Val.mk [65] [120]) [Val.mk [66] [49]] 0 2])
    (some [Inf.mk (Val.mk [65] [121]) [Val.mk [66] [50]] 0 3])
    none none 0

/-- C7 witness input: `@F,K` / `a,1` / `b,1` / `a,0` — the conflicting
conclusions `F=a ⇐ K=1` and `F=b ⇐ K=1` of the spec's example, plus a
row giving each name a second value. -/
def c7Rows : List (List Sym) :=
  [[[64, 70], [75]], [[97], [49]], [[98], [49]], [[97], [48]]]

/-- The tree `mainRun` builds for `c7Rows`: the `infsO` bucket of the
root holds the two conflicting inferences. -/
def nodC7 : Nod :=
  Nod.mk 1 (some (Val.mk [75] [48]))
    (some [Inf.mk (Val.mk [70] [97]) [Val.mk [75] [48]] 0 4])
    (some [Inf.mk (Val.mk [70] [97]) [Val.mk [75] [49]] 0 2,
      Inf.mk (Val.mk [70] [98]) [Val.mk [75] [49]] 0 3])
    none none 0

/-- The node `nodBld` builds for the acyclic witness instance: testing
`P=1` resolves everything at depth 0. -/
def nodW1 : Nod :=
  Nod.mk 1 (some w9P1) (some [w9k1]) (some [w9k2]) none none 0

/-! ## Comparison lemmas -/

theorem then_eq_eq {o p : Ordering} : o.then p = .eq ↔ o = .eq ∧ p = .eq := by
  cases o <;> simp [Ordering.then]

theorem then_eq_lt {o p : Ordering} :
    o.then p = .lt ↔ o = .lt ∨ (o = .eq ∧ p = .lt) := by
  cases o <;> simp [Ordering.then]

theorem then_eq_gt {o p : Ordering} :
    o.then p = .gt ↔ o = .gt ∨ (o = .eq ∧ p = .gt) := by
  cases o <;> simp [Ordering.then]

theorem symCmp_eq_iff : ∀ {a b : Sym}, symCmp a b = .eq ↔ a = b
  | [], [] => by simp [symCmp]
  | [], _ :: _ => by simp [symCmp]
  | _ :: _, [] => by simp [symCmp]
  | x :: xs, y :: ys => by
    simp only [symCmp, then_eq_eq, Nat.compare_eq_eq, symCmp_eq_iff,
      List.cons.injEq]

theorem symCmp_refl (a : Sym) : symCmp a a = .eq := symCmp_eq_iff.mpr rfl

theorem symCmp_lt_gt : ∀ {a b : Sym}, symCmp a b = .lt ↔ symCmp b a = .gt
  | [], [] => by simp [symCmp]
  | [], _ :: _ => by simp [symCmp]
  | _ :: _, [] => by simp [symCmp]
  | x :: xs, y :: ys => by
    simp only [symCmp, then_eq_lt, then_eq_gt, Nat.compare_eq_lt,
      Nat.compare_eq_gt, Nat.compare_eq_eq, symCmp_lt_gt (a := xs) (b := ys)]
    constructor
    · rintro (h | ⟨h1, h2⟩)
      · exact .inl h
      · exact .inr ⟨h1.symm, h2⟩
    · rintro (h | ⟨h1, h2⟩)
      · exact .inl h
      · exact .inr ⟨h1.symm, h2⟩

theorem symCmp_lt_trans :
    ∀ {a b c : Sym}, symCmp a b = .lt → symCmp b c = .lt → symCmp a c = .lt
  | [], [], _ :: _, _, _ => rfl
  | [], _ :: _, _ :: _, _, _ => rfl
  | x :: xs, y :: ys, z :: zs, h1, h2 => by
    simp only [symCmp, then_eq_lt, Nat.compare_eq_lt, Nat.compare_eq_eq]
      at h1 h2 ⊢
    rcases h1 with h1 | ⟨rfl, h1⟩ <;> rcases h2 with h2 | ⟨he2, h2⟩
    · exact .inl (h1.trans h2)
    · exact .inl (he2 ▸ h1)
    · exact .inl h2
    · exact .inr ⟨he2, symCmp_lt_trans h1 h2⟩

theorem valCmp_eq_iff {a b : Val} : valCmp a b = .eq ↔ a = b := by
  cases a; cases b
  simp only [valCmp, then_eq_eq, symCmp_eq_iff, Val.mk.injEq]

theorem valCmp_refl (a : Val) : valCmp a a = .eq := valCmp_eq_iff.mpr rfl

theorem valCmp_lt_gt {a b : Val} : valCmp a b = .lt ↔ valCmp b a = .gt := by
  simp only [valCmp, then_eq_lt, then_eq_gt]
  constructor
  · rintro (h | ⟨h1, h2⟩)
    · exact .inl (symCmp_lt_gt.mp h)
    · exact .inr ⟨symCmp_eq_iff.mpr (symCmp_eq_iff.mp h1).symm,
        symCmp_lt_gt.mp h2⟩
  · rintro (h | ⟨h1, h2⟩)
    · exact .inl (symCmp_lt_gt.mpr h)
    · exact .inr ⟨symCmp_eq_iff.mpr (symCmp_eq_iff.mp h1).symm,
        symCmp_lt_gt.mpr h2⟩

theorem valCmp_lt_trans {a b c : Val} :
    valCmp a b = .lt → valCmp b c = .lt → valCmp a c = .lt := by
  simp only [valCmp, then_eq_lt]
  rintro (h1 | ⟨h1, h1s⟩) (h2 | ⟨h2, h2s⟩)
  · exact .inl (symCmp_lt_trans h1 h2)
  · exact .inl (symCmp_eq_iff.mp h2 ▸ h1)
  · exact .inl (symCmp_eq_iff.mp h1 ▸ h2)
  · exact .inr ⟨symCmp_eq_iff.mpr
      ((symCmp_eq_iff.mp h1).trans (symCmp_eq_iff.mp h2)),
      symCmp_lt_trans h1s h2s⟩

theorem valsCmp_eq_iff : ∀ {a b : List Val}, valsCmp a b = .eq ↔ a = b
  | [], [] => by simp [valsCmp]
  | [], _ :: _ => by simp [valsCmp]
  | _ :: _, [] => by simp [valsCmp]
  | x :: xs, y :: ys => by
    simp only [valsCmp, then_eq_eq, valCmp_eq_iff, valsCmp_eq_iff,
      List.cons.injEq]

theorem valsCmp_lt_gt : ∀ {a b : List Val}, valsCmp a b = .lt ↔ valsCmp b a = .gt
  | [], [] => by simp [valsCmp]
  | [], _ :: _ => by simp [valsCmp]
  | _ :: _, [] => by simp [valsCmp]
  | x :: xs, y :: ys => by
    simp only [valsCmp, then_eq_lt, then_eq_gt]
    constructor
    · rintro (h | ⟨h1, h2⟩)
      · exact .inl (valCmp_lt_gt.mp h)
      · exact .inr ⟨valCmp_eq_iff.mpr (valCmp_eq_iff.mp h1).symm,
          (valsCmp_lt_gt (a := xs) (b := ys)).mp h2⟩
    · rintro (h | ⟨h1, h2⟩)
      · exact .inl (valCmp_lt_gt.mpr h)
      · exact .inr ⟨valCmp_eq_iff.mpr (valCmp_eq_iff.mp h1).symm,
          (valsCmp_lt_gt (a := xs) (b := ys)).mpr h2⟩

theorem valsCmp_lt_trans :
    ∀ {a b c : List Val},
      valsCmp a b = .lt → valsCmp b c = .lt → valsCmp a c = .lt
  | [], [], _ :: _, _, _ => rfl
  | [], _ :: _, _ :: _, _, _ => rfl
  | x :: xs, y :: ys, z :: zs, h1, h2 => by
    simp only [valsCmp, then_eq_lt] at h1 h2 ⊢
    rcases h1 with h1 | ⟨h1, h1s⟩ <;> rcases h2 with h2 | ⟨h2, h2s⟩
    · exact .inl (valCmp_lt_trans h1 h2)
    · exact .inl (valCmp_eq_iff.mp h2 ▸ h1)
    · exact .inl (valCmp_eq_iff.mp h1 ▸ h2)
    · exact .inr ⟨valCmp_eq_iff.mpr
        ((valCmp_eq_iff.mp h1).trans (valCmp_eq_iff.mp h2)),
        valsCmp_lt_trans h1s h2s⟩

theorem infCmp_eq_iff {a b : Inf} :
    infCmp a b = .eq ↔ a.val = b.val ∧ a.vals = b.vals := by
  simp only [infCmp, then_eq_eq, valCmp_eq_iff, valsCmp_eq_iff]

theorem infCmp_refl (a : Inf) : infCmp a a = .eq := infCmp_eq_iff.mpr ⟨rfl, rfl⟩

theorem infCmp_lt_gt {a b : Inf} : infCmp a b = .lt ↔ infCmp b a = .gt := by
  simp only [infCmp, then_eq_lt, then_eq_gt]
  constructor
  · rintro (h | ⟨h1, h2⟩)
    · exact .inl (valCmp_lt_gt.mp h)
    · exact .inr ⟨valCmp_eq_iff.mpr (valCmp_eq_iff.mp h1).symm,
        valsCmp_lt_gt.mp h2⟩
  · rintro (h | ⟨h1, h2⟩)
    · exact .inl (valCmp_lt_gt.mpr h)
    · exact .inr ⟨valCmp_eq_iff.mpr (valCmp_eq_iff.mp h1).symm,
        valsCmp_lt_gt.mpr h2⟩

theorem infCmp_lt_trans {a b c : Inf} :
    infCmp a b = .lt → infCmp b c = .lt → infCmp a c = .lt := by
  simp only [infCmp, then_eq_lt]
  rintro (h1 | ⟨h1, h1s⟩) (h2 | ⟨h2, h2s⟩)
  · exact .inl (valCmp_lt_trans h1 h2)
  · exact .inl (valCmp_eq_iff.mp h2 ▸ h1)
  · exact .inl (valCmp_eq_iff.mp h1 ▸ h2)
  · exact .inr ⟨valCmp_eq_iff.mpr
      ((valCmp_eq_iff.mp h1).trans (valCmp_eq_iff.mp h2)),
      valsCmp_lt_trans h1s h2s⟩

theorem infCmp_congr {a b c : Inf} (h : infCmp a b = .eq) :
    infCmp a c = infCmp b c := by
  obtain ⟨h1, h2⟩ := infCmp_eq_iff.mp h
  simp [infCmp, h1, h2]

theorem valCmp_congr {a b c : Val} (h : valCmp a b = .eq) :
    valCmp a c = valCmp b c := by
  rw [valCmp_eq_iff.mp h]

theorem symCmp_congr {a b c : Sym} (h : symCmp a b = .eq) :
    symCmp a c = symCmp b c := by
  rw [symCmp_eq_iff.mp h]

/-! ## The binary-search add (`valsAdd`/`infsAdd`) — claim C6 -/

section BinAdd

variable {α : Type}

theorem binSearchIns_spec (cmp : α → α → Ordering)
    (hlt : ∀ {a b c : α}, cmp a b = .lt → cmp b c = .lt → cmp a c = .lt)
    (hlg : ∀ {a b : α}, cmp a b = .lt ↔ cmp b a = .gt)
    (l : List α) (x : α)
    (hs : l.Pairwise (fun a b => cmp a b = .lt)) :
    ∀ (fuel lo hi : Nat), hi ≤ l.length → lo ≤ hi → hi - lo < fuel →
    (∀ k, k < lo → ∀ hk : k < l.length, cmp x (l.get ⟨k, hk⟩) = .gt) →
    (∀ k, hi ≤ k → ∀ hk : k < l.length, cmp x (l.get ⟨k, hk⟩) = .lt) →
    (match binSearchIns cmp l x fuel lo hi with
     | .inl i => ∃ h9 : i < l.length, cmp x (l.get ⟨i, h9⟩) = .eq
     | .inr p => p ≤ l.length ∧
        ∀ k, ∀ hk : k < l.length,
          (k < p → cmp x (l.get ⟨k, hk⟩) = .gt) ∧
          (p ≤ k → cmp x (l.get ⟨k, hk⟩) = .lt)) := by
  intro fuel
  induction fuel with
  | zero => intro lo hi _ _ h; omega
  | succ fuel ih =>
    intro lo hi hhi hlohi hfuel hbelow habove
    rw [binSearchIns]
    by_cases hlh : lo < hi
    · simp only [if_pos hlh]
      have hmid : lo + (hi - lo) / 2 < l.length := by omega
      have hgetD : l.getD (lo + (hi - lo) / 2) x =
          l.get ⟨lo + (hi - lo) / 2, hmid⟩ := List.getD_eq_get l x hmid
      rw [hgetD]
      have hpg := List.pairwise_iff_get.mp hs
      cases hc : cmp x (l.get ⟨lo + (hi - lo) / 2, hmid⟩) with
      | eq => exact ⟨hmid, hc⟩
      | lt =>
        apply ih lo (lo + (hi - lo) / 2) (by omega) (by omega) (by omega)
          hbelow
        intro k hk hkl
        rcases Nat.lt_or_ge k l.length with h | h
        · by_cases hkm : k = lo + (hi - lo) / 2
          · subst hkm; exact hc
          · by_cases hkhi : hi ≤ k
            · exact habove k hkhi hkl
            · exact hlt hc (hpg ⟨lo + (hi - lo) / 2, hmid⟩ ⟨k, hkl⟩
                (by simp; omega))
        · omega
      | gt =>
        apply ih (lo + (hi - lo) / 2 + 1) hi hhi (by omega) (by omega)
        · intro k hk hkl
          by_cases hkm : k = lo + (hi - lo) / 2
          · subst hkm; exact hc
          · by_cases hklo : k < lo
            · exact hbelow k hklo hkl
            · have hlm : cmp (l.get ⟨k, hkl⟩)
                  (l.get ⟨lo + (hi - lo) / 2, hmid⟩) = .lt :=
                hpg ⟨k, hkl⟩ ⟨lo + (hi - lo) / 2, hmid⟩ (by simp; omega)
              exact hlg.mp (hlt hlm (hlg.mpr hc))
        · exact habove
    · simp only [if_neg hlh]
      have : lo = hi := by omega
      subst this
      exact ⟨by omega, fun k hk =>
        ⟨fun h => hbelow k h hk, fun h => habove k h hk⟩⟩

theorem binAdd_spec (cmp : α → α → Ordering)
    (hlt : ∀ {a b c : α}, cmp a b = .lt → cmp b c = .lt → cmp a c = .lt)
    (hlg : ∀ {a b : α}, cmp a b = .lt ↔ cmp b a = .gt)
    (l : List α) (x : α)
    (hs : l.Pairwise (fun a b => cmp a b = .lt)) :
    ((∃ u ∈ l, cmp x u = .eq) →
      (binAdd cmp l x).1 ∈ l ∧ cmp x (binAdd cmp l x).1 = .eq ∧
      (binAdd cmp l x).2 = l) ∧
    ((∀ u ∈ l, cmp x u ≠ .eq) →
      (binAdd cmp l x).1 = x ∧
      ∃ p ≤ l.length, (binAdd cmp l x).2 = l.take p ++ x :: l.drop p ∧
        (∀ u ∈ l.take p, cmp u x = .lt) ∧
        (∀ u ∈ l.drop p, cmp x u = .lt)) ∧
    (binAdd cmp l x).2.Pairwise (fun a b => cmp a b = .lt) := by
  have hspec := binSearchIns_spec cmp @hlt @hlg l x hs (l.length + 1) 0
    l.length (le_refl _) (Nat.zero_le _) (by omega)
    (fun k hk _ => absurd hk (Nat.not_lt_zero k))
    (fun k hk hkl => absurd hkl (by omega))
  unfold binAdd
  cases hbs : binSearchIns cmp l x (l.length + 1) 0 l.length with
  | inl i =>
    rw [hbs] at hspec
    obtain ⟨h9, heq⟩ := hspec
    have hgd : l.getD i x = l.get ⟨i, h9⟩ := List.getD_eq_get l x h9
    dsimp only
    rw [hgd]
    exact ⟨fun _ => ⟨List.get_mem l i h9, heq, rfl⟩,
      fun hne => absurd heq (hne _ (List.get_mem l i h9)), hs⟩
  | inr p =>
    rw [hbs] at hspec
    dsimp only
    obtain ⟨hp, hk⟩ := hspec
    have hget : ∀ u ∈ l, cmp x u ≠ .eq := by
      intro u hu
      obtain ⟨⟨k, hkl⟩, rfl⟩ := List.mem_iff_get.mp hu
      rcases Nat.lt_or_ge k p with h | h
      · rw [(hk k hkl).1 h]; simp
      · rw [(hk k hkl).2 h]; simp
    have htake : ∀ u ∈ l.take p, cmp u x = .lt := by
      intro u hu
      obtain ⟨⟨k, hkt⟩, rfl⟩ := List.mem_iff_get.mp hu
      have hkp : k < p := by
        have := hkt; simp only [List.length_take] at this; omega
      have hkl : k < l.length := by
        have := hkt; simp only [List.length_take] at this; omega
      have heq9 : (l.take p).get ⟨k, hkt⟩ = l.get ⟨k, hkl⟩ :=
        (List.get_take l hkl hkp).symm
      rw [heq9]
      exact hlg.mpr ((hk k hkl).1 hkp)
    have hdrop : ∀ u ∈ l.drop p, cmp x u = .lt := by
      intro u hu
      obtain ⟨⟨k, hkd⟩, rfl⟩ := List.mem_iff_get.mp hu
      have hkl : p + k < l.length := by
        have := hkd; simp only [List.length_drop] at this; omega
      have heq9 : (l.drop p).get ⟨k, hkd⟩ = l.get ⟨p + k, hkl⟩ :=
        (List.get_drop l hkl).symm
      rw [heq9]
      exact (hk (p + k) hkl).2 (by omega)
    refine ⟨fun ⟨u, hu, he⟩ => absurd he (hget u hu),
      fun _ => ⟨rfl, p, hp, rfl, htake, hdrop⟩, ?_⟩
    rw [List.pairwise_append]
    refine ⟨hs.sublist (List.take_sublist p l), ?_, ?_⟩
    · rw [List.pairwise_cons]
      exact ⟨hdrop, hs.sublist (List.drop_sublist p l)⟩
    · intro a ha b hb
      rcases List.mem_cons.mp hb with rfl | hb
      · exact htake a ha
      · exact hlt (htake a ha) (hdrop b hb)

end BinAdd

/-! ## Insertion sort (model of `qsort`) -/

section SortBy

variable {α : Type}

theorem insBy_perm (le : α → α → Bool) (x : α) :
    ∀ l : List α, (insBy le x l).Perm (x :: l)
  | [] => List.Perm.refl _
  | y :: ys => by
    rw [insBy]
    by_cases h : le x y
    · simp [h]
    · simp only [h, if_false]
      exact ((insBy_perm le x ys).cons y).trans (List.Perm.swap x y ys)

theorem sortBy_perm (le : α → α → Bool) :
    ∀ l : List α, (sortBy le l).Perm l
  | [] => List.Perm.refl _
  | y :: ys => by
    rw [sortBy, List.foldr_cons]
    exact (insBy_perm le y _).trans ((sortBy_perm le ys).cons y)

theorem mem_sortBy {le : α → α → Bool} {l : List α} {x : α} :
    x ∈ sortBy le l ↔ x ∈ l := (sortBy_perm le l).mem_iff

theorem insBy_pairwise (le : α → α → Bool)
    (htr : ∀ {a b c}, le a b = true → le b c = true → le a c = true)
    (hto : ∀ a b, le a b = true ∨ le b a = true) (x : α) :
    ∀ l : List α, l.Pairwise (fun a b => le a b = true) →
      (insBy le x l).Pairwise (fun a b => le a b = true)
  | [], _ => by simp [insBy]
  | y :: ys, h => by
    rw [insBy]
    rcases List.pairwise_cons.mp h with ⟨hy, hys⟩
    by_cases hxy : le x y
    · simp only [hxy, if_true]
      exact List.pairwise_cons.mpr ⟨fun z hz => by
        rcases List.mem_cons.mp hz with rfl | hz
        · exact hxy
        · exact htr hxy (hy z hz), h⟩
    · simp only [hxy, if_false]
      refine List.pairwise_cons.mpr ⟨fun z hz => ?_,
        insBy_pairwise le @htr hto x ys hys⟩
      rcases List.mem_cons.mp ((insBy_perm le x ys).mem_iff.mp hz) with
        heq | hz9
      · rcases hto x y with h9 | h9
        · exact absurd h9 hxy
        · exact heq ▸ h9
      · exact hy z hz9

theorem sortBy_pairwise (le : α → α → Bool)
    (htr : ∀ {a b c}, le a b = true → le b c = true → le a c = true)
    (hto : ∀ a b, le a b = true ∨ le b a = true) :
    ∀ l : List α, (sortBy le l).Pairwise (fun a b => le a b = true)
  | [] => List.Pairwise.nil
  | y :: ys => by
    rw [sortBy, List.foldr_cons]
    exact insBy_pairwise le @htr hto y _ (sortBy_pairwise le @htr hto ys)

/-- From a weakly sorted permutation whose elements are pairwise
comparator-distinct, recover strict sortedness. -/
theorem pairwise_lt_of_le_ne (cmp : α → α → Ordering) (l : List α)
    (hle : l.Pairwise (fun a b => decide (cmp a b ≠ .gt) = true))
    (hne : l.Pairwise (fun a b => cmp a b ≠ .eq)) :
    l.Pairwise (fun a b => cmp a b = .lt) := by
  have := hle.and hne
  exact this.imp (fun {a b} h => by
    rcases h with ⟨h1, h2⟩
    cases hc : cmp a b
    · rfl
    · exact absurd hc h2
    · rw [decide_eq_true_eq] at h1; exact absurd hc h1)

end SortBy

/-! ## `symsAdd`/`namsAdd` specs -/

theorem symLe_trans {a b c : Sym}
    (h1 : decide (symCmp a b ≠ .gt) = true)
    (h2 : decide (symCmp b c ≠ .gt) = true) :
    decide (symCmp a c ≠ .gt) = true := by
  rw [decide_eq_true_eq] at h1 h2 ⊢
  intro hac
  cases hab : symCmp a b with
  | gt => exact h1 hab
  | eq => rw [symCmp_eq_iff.mp hab] at hac; exact h2 hac
  | lt =>
    cases hbc : symCmp b c with
    | gt => exact h2 hbc
    | eq =>
      rw [← symCmp_eq_iff.mp hbc] at hac
      rw [hab] at hac
      exact Ordering.noConfusion hac
    | lt =>
      rw [symCmp_lt_trans hab hbc] at hac
      exact Ordering.noConfusion hac

theorem symLe_total (a b : Sym) :
    decide (symCmp a b ≠ .gt) = true ∨ decide (symCmp b a ≠ .gt) = true := by
  rw [decide_eq_true_eq, decide_eq_true_eq]
  cases hab : symCmp a b with
  | lt => left; simp
  | eq => left; simp
  | gt =>
    right
    rw [symCmp_lt_gt.mpr hab]
    simp

theorem symsAdd_spec (l : List Sym) (s : Sym)
    (hs : l.Pairwise (fun a b => symCmp a b = .lt)) :
    ((∃ u ∈ l, symCmp s u = .eq) →
      (symsAdd l s).1 ∈ l ∧ symCmp s (symsAdd l s).1 = .eq ∧
      (symsAdd l s).2 = l) ∧
    ((∀ u ∈ l, symCmp s u ≠ .eq) →
      (symsAdd l s).1 = s ∧ (symsAdd l s).2.Perm (s :: l)) ∧
    (symsAdd l s).2.Pairwise (fun a b => symCmp a b = .lt) := by
  unfold symsAdd
  cases hf : l.find? (fun e => symCmp s e = .eq) with
  | some u =>
    dsimp only
    have hmem := List.mem_of_find?_eq_some hf
    have hpu := List.find?_some hf
    rw [decide_eq_true_eq] at hpu
    exact ⟨fun _ => ⟨hmem, hpu, rfl⟩, fun hne => absurd hpu (hne u hmem), hs⟩
  | none =>
    dsimp only
    have hne : ∀ u ∈ l, symCmp s u ≠ .eq := by
      intro u hu
      have := List.find?_eq_none.mp hf u hu
      rwa [decide_eq_true_eq] at this
    have hperm : (sortBy (fun a b => decide (symCmp a b ≠ .gt))
        (l ++ [s])).Perm (s :: l) := by
      refine (sortBy_perm _ _).trans ?_
      exact (List.perm_append_comm).trans (by simp)
    refine ⟨fun ⟨u, hu, he⟩ => absurd he (hne u hu),
      fun _ => ⟨rfl, hperm⟩, ?_⟩
    apply pairwise_lt_of_le_ne symCmp
    · exact sortBy_pairwise (fun a b => decide (symCmp a b ≠ .gt))
        (fun {a b c} h1 h2 => symLe_trans h1 h2) symLe_total (l ++ [s])
    · have hbase : (s :: l).Pairwise (fun a b => symCmp a b ≠ .eq) := by
        refine List.pairwise_cons.mpr ⟨hne, ?_⟩
        exact hs.imp (fun {a b} h => by rw [h]; simp)
      have hsymm : ∀ {x y : Sym}, symCmp x y ≠ .eq → symCmp y x ≠ .eq :=
        fun {x y} h he => h (symCmp_eq_iff.mpr (symCmp_eq_iff.mp he).symm)
      exact (hperm.pairwise_iff hsymm).mpr hbase

theorem namLe_trans {a b c : Sym × List Val}
    (h1 : decide (symCmp a.1 b.1 ≠ .gt) = true)
    (h2 : decide (symCmp b.1 c.1 ≠ .gt) = true) :
    decide (symCmp a.1 c.1 ≠ .gt) = true := symLe_trans h1 h2

theorem namsAdd_spec (l : List (Sym × List Val)) (n : Sym × List Val)
    (hs : l.Pairwise (fun a b => symCmp a.1 b.1 = .lt)) :
    ((∃ u ∈ l, symCmp n.1 u.1 = .eq) →
      (namsAdd l n).1 ∈ l ∧ symCmp n.1 (namsAdd l n).1.1 = .eq ∧
      (namsAdd l n).2 = l) ∧
    ((∀ u ∈ l, symCmp n.1 u.1 ≠ .eq) →
      (namsAdd l n).1 = n ∧ (namsAdd l n).2.Perm (n :: l)) ∧
    (namsAdd l n).2.Pairwise (fun a b => symCmp a.1 b.1 = .lt) := by
  unfold namsAdd
  cases hf : l.find? (fun e => symCmp n.1 e.1 = .eq) with
  | some u =>
    dsimp only
    have hmem := List.mem_of_find?_eq_some hf
    have hpu := List.find?_some hf
    rw [decide_eq_true_eq] at hpu
    exact ⟨fun _ => ⟨hmem, hpu, rfl⟩, fun hne => absurd hpu (hne u hmem), hs⟩
  | none =>
    dsimp only
    have hne : ∀ u ∈ l, symCmp n.1 u.1 ≠ .eq := by
      intro u hu
      have := List.find?_eq_none.mp hf u hu
      rwa [decide_eq_true_eq] at this
    have hperm : (sortBy (fun a b => decide (symCmp a.1 b.1 ≠ .gt))
        (l ++ [n])).Perm (n :: l) := by
      refine (sortBy_perm _ _).trans ?_
      exact (List.perm_append_comm).trans (by simp)
    refine ⟨fun ⟨u, hu, he⟩ => absurd he (hne u hu),
      fun _ => ⟨rfl, hperm⟩, ?_⟩
    have hle := sortBy_pairwise (fun a b : Sym × List Val =>
        decide (symCmp a.1 b.1 ≠ .gt))
      (fun {a b c} h1 h2 => namLe_trans h1 h2)
      (fun a b => symLe_total a.1 b.1) (l ++ [n])
    have hnep : (sortBy (fun a b : Sym × List Val =>
        decide (symCmp a.1 b.1 ≠ .gt)) (l ++ [n])).Pairwise
        (fun a b => symCmp a.1 b.1 ≠ .eq) := by
      have hbase : (n :: l).Pairwise (fun a b => symCmp a.1 b.1 ≠ .eq) := by
        refine List.pairwise_cons.mpr ⟨hne, ?_⟩
        exact hs.imp (fun {a b} h => by rw [h]; simp)
      have hsymm : ∀ {x y : Sym × List Val},
          symCmp x.1 y.1 ≠ .eq → symCmp y.1 x.1 ≠ .eq :=
        fun {x y} h he => h (symCmp_eq_iff.mpr (symCmp_eq_iff.mp he).symm)
      exact (hperm.pairwise_iff hsymm).mpr hbase
    exact (hle.and hnep).imp (fun {a b} h => by
      rcases h with ⟨h1, h2⟩
      cases hc : symCmp a.1 b.1
      · rfl
      · exact absurd hc h2
      · rw [decide_eq_true_eq] at h1; exact absurd hc h1)

/-- C6: For every interning sequence (symbols, names, values, inferences)
and every `Add(item)` call on a sorted sequence: if an element equal to
`item` under the category's comparison is already present, `Add` returns
that existing element and leaves the sequence unchanged; otherwise it
inserts `item` at its sorted position (for the binary-insertion adds, a
`take`/`drop` split below/above `item`; for the `qsort`-based adds, a
permutation of the old sequence plus `item`) and returns `item`; in both
cases the sequence is fully sorted in ascending order afterwards. -/
theorem C6_interning_add_sorted :
    (∀ (l : List Val) (v : Val),
      l.Pairwise (fun a b => valCmp a b = .lt) →
      ((∃ u ∈ l, valCmp v u = .eq) →
        (valsAdd l v).1 ∈ l ∧ valCmp v (valsAdd l v).1 = .eq ∧
        (valsAdd l v).2 = l) ∧
      ((∀ u ∈ l, valCmp v u ≠ .eq) →
        (valsAdd l v).1 = v ∧
        ∃ p ≤ l.length, (valsAdd l v).2 = l.take p ++ v :: l.drop p ∧
          (∀ u ∈ l.take p, valCmp u v = .lt) ∧
          (∀ u ∈ l.drop p, valCmp v u = .lt)) ∧
      (valsAdd l v).2.Pairwise (fun a b => valCmp a b = .lt)) ∧
    (∀ (l : List Inf) (i : Inf),
      l.Pairwise (fun a b => infCmp a b = .lt) →
      ((∃ u ∈ l, infCmp i u = .eq) →
        (infsAdd l i).1 ∈ l ∧ infCmp i (infsAdd l i).1 = .eq ∧
        (infsAdd l i).2 = l) ∧
      ((∀ u ∈ l, infCmp i u ≠ .eq) →
        (infsAdd l i).1 = i ∧
        ∃ p ≤ l.length, (infsAdd l i).2 = l.take p ++ i :: l.drop p ∧
          (∀ u ∈ l.take p, infCmp u i = .lt) ∧
          (∀ u ∈ l.drop p, infCmp i u = .lt)) ∧
      (infsAdd l i).2.Pairwise (fun a b => infCmp a b = .lt)) ∧
    (∀ (l : List Sym) (s : Sym),
      l.Pairwise (fun a b => symCmp a b = .lt) →
      ((∃ u ∈ l, symCmp s u = .eq) →
        (symsAdd l s).1 ∈ l ∧ symCmp s (symsAdd l s).1 = .eq ∧
        (symsAdd l s).2 = l) ∧
      ((∀ u ∈ l, symCmp s u ≠ .eq) →
        (symsAdd l s).1 = s ∧ (symsAdd l s).2.Perm (s :: l)) ∧
      (symsAdd l s).2.Pairwise (fun a b => symCmp a b = .lt)) ∧
    (∀ (l : List (Sym × List Val)) (n : Sym × List Val),
      l.Pairwise (fun a b => symCmp a.1 b.1 = .lt) →
      ((∃ u ∈ l, symCmp n.1 u.1 = .eq) →
        (namsAdd l n).1 ∈ l ∧ symCmp n.1 (namsAdd l n).1.1 = .eq ∧
        (namsAdd l n).2 = l) ∧
      ((∀ u ∈ l, symCmp n.1 u.1 ≠ .eq) →
        (namsAdd l n).1 = n ∧ (namsAdd l n).2.Perm (n :: l)) ∧
      (namsAdd l n).2.Pairwise (fun a b => symCmp a.1 b.1 = .lt)) := by
  refine ⟨?_, ?_, symsAdd_spec, namsAdd_spec⟩
  · intro l v hs
    exact binAdd_spec valCmp (fun {a b c} => valCmp_lt_trans)
      (fun {a b} => valCmp_lt_gt) l v hs
  · intro l i hs
    exact binAdd_spec infCmp (fun {a b c} => infCmp_lt_trans)
      (fun {a b} => infCmp_lt_gt) l i hs

/-- Witness for C6 at concrete inputs: `valsAdd` inserts `(B,1)` between
`(A,1)` and `(B,2)` keeping order, and returns an existing equal
element unchanged. -/
theorem C6_interning_add_sorted_witness :
    (valsAdd [Val.mk [65] [49], Val.mk [66] [50]] (Val.mk [66] [49])).1 =
      Val.mk [66] [49] ∧
    (valsAdd [Val.mk [65] [49], Val.mk [66] [50]]
      (Val.mk [66] [49])).2.Pairwise (fun a b => valCmp a b = .lt) ∧
    (valsAdd [Val.mk [65] [49], Val.mk [66] [50]] (Val.mk [66] [50])).2 =
      [Val.mk [65] [49], Val.mk [66] [50]] := by
  have h1 := C6_interning_add_sorted.1
    [Val.mk [65] [49], Val.mk [66] [50]] (Val.mk [66] [49]) (by decide)
  have h2 := C6_interning_add_sorted.1
    [Val.mk [65] [49], Val.mk [66] [50]] (Val.mk [66] [50]) (by decide)
  refine ⟨(h1.2.1 (by decide)).1, h1.2.2, (h2.1 ?_).2.2⟩
  exact ⟨Val.mk [66] [50], by decide, by decide⟩

/-! ## Claim C5 — `valsSubVal` -/

theorem foldl_filter_count (p : Val → Bool) (q : Val → Prop)
    [DecidablePred q] :
    ∀ (vals : List Val) (acc : List Val × Nat),
      vals.foldl
        (fun (acc : List Val × Nat) v =>
          if p v then
            (acc.1 ++ [v], if q v then acc.2 + 1 else acc.2)
          else acc) acc =
      (acc.1 ++ vals.filter p,
        acc.2 + ((vals.filter p).filter (fun v => decide (q v))).length)
  | [], acc => by simp
  | v :: vs, acc => by
    rw [List.foldl_cons]
    by_cases hp : p v
    · rw [if_pos hp]
      rw [foldl_filter_count p q vs]
      rw [List.filter_cons_of_pos hp]
      by_cases hq : q v
      · rw [if_pos hq]
        rw [List.filter_cons_of_pos (by simpa using hq)]
        simp [List.append_assoc]
        omega
      · rw [if_neg hq]
        rw [List.filter_cons_of_neg (by simpa using hq)]
        simp [List.append_assoc]
    · rw [if_neg hp]
      rw [foldl_filter_count p q vs]
      rw [List.filter_cons_of_neg hp]

/-- C5 counterexample: at `vals = {A=1, A=2, B=1}`, `t = A=1` and one
reduced inference with conditions `{A=2, B=2}`, the source's
`valsSubVal` drops `B=1` (the value `B=1` appears in no condition) and
then collapses `A=2`, returning the empty frontier, whereas the claim's
name-level filter would keep `B=1` (the NAME `B` appears in the
condition `B=2`). -/
theorem C5_counterexample :
    valsSubVal c5vals c5t c5infs = [] ∧
    valsSubValNameFilter c5vals c5t c5infs = [Val.mk [66] [49]] ∧
    valsSubVal c5vals c5t c5infs ≠ valsSubValNameFilter c5vals c5t c5infs := by
  decide

/-- `valsSubVal` rewritten as a declarative filter; shared by the C5 and
C9 developments. -/
theorem valsSubVal_eq :
    ∀ (vals : List Val) (t : Val) (infs : List Inf),
      valsSubVal vals t infs = valsSubValValueFilter vals t infs := by
  intro vals t infs
  unfold valsSubVal valsSubValValueFilter
  rw [foldl_filter_count
    (fun v => v ≠ t && infs.any (fun k => valMemB v k.vals))
    (fun v => v.nam = t.nam) vals ([], 0)]
  simp

/-- C5 (amended): for every value list `vals`, tested value `t` and
inference set `reducedInfs`, `valsSubVal` returns the subsequence of
`vals` obtained by dropping `t`, keeping exactly those values that
THEMSELVES appear in some condition of `reducedInfs` (not merely those
whose name appears), and then, if exactly one value under `t`'s name
remains after that filter, dropping that value as well. -/
theorem C5_valsSubVal_value_filter :
    ∀ (vals : List Val) (t : Val) (infs : List Inf),
      valsSubVal vals t infs = valsSubValValueFilter vals t infs :=
  fun vals t infs => valsSubVal_eq vals t infs

/-! ## Claim C2 — `infsVal` / `namsInd` -/

theorem binAdd_mem {α : Type} (cmp : α → α → Ordering)
    (hlt : ∀ {a b c : α}, cmp a b = .lt → cmp b c = .lt → cmp a c = .lt)
    (hlg : ∀ {a b : α}, cmp a b = .lt ↔ cmp b a = .gt)
    (l : List α) (x : α)
    (hs : l.Pairwise (fun a b => cmp a b = .lt)) (y : α) :
    y ∈ (binAdd cmp l x).2 ↔
      y ∈ l ∨ ((∀ u ∈ l, cmp x u ≠ .eq) ∧ y = x) := by
  have h := @binAdd_spec α cmp @hlt @hlg l x hs
  by_cases hex : ∃ u ∈ l, cmp x u = .eq
  · rw [(h.1 hex).2.2]
    obtain ⟨u, hu, he⟩ := hex
    exact ⟨fun hy => .inl hy, fun hy => by
      rcases hy with hy | ⟨hne, rfl⟩
      · exact hy
      · exact absurd he (hne u hu)⟩
  · push_neg at hex
    have hne : ∀ u ∈ l, cmp x u ≠ .eq := hex
    obtain ⟨-, p, hple, heq, -, -⟩ := h.2.1 hne
    rw [heq]
    constructor
    · intro hy
      rcases List.mem_append.mp hy with hy | hy
      · exact .inl (List.mem_of_mem_take hy)
      · rcases List.mem_cons.mp hy with rfl | hy
        · exact .inr ⟨hne, rfl⟩
        · exact .inl (List.mem_of_mem_drop hy)
    · intro hy
      rcases hy with hy | ⟨_, rfl⟩
      · rw [← List.take_append_drop p l] at hy
        rcases List.mem_append.mp hy with hy | hy
        · exact List.mem_append.mpr (.inl hy)
        · exact List.mem_append.mpr (.inr (List.mem_cons_of_mem _ hy))
      · exact List.mem_append.mpr (.inr (List.mem_cons_self _ _))

theorem infsVal_go (v : Val) :
    ∀ (rest done r0 : List Inf),
      (done ++ rest).Pairwise (fun a b => infCmp a b = .lt) →
      r0.Pairwise (fun a b => infCmp a b = .lt) →
      (∀ y, y ∈ r0 ↔ y ∈ done ∧ valMemB v y.vals = true) →
      (∀ y, y ∈ rest.foldl
          (fun r j => if valMemB v j.vals then (infsAdd r j).2 else r) r0 ↔
        y ∈ done ++ rest ∧ valMemB v y.vals = true) ∧
      (rest.foldl
          (fun r j => if valMemB v j.vals then (infsAdd r j).2 else r)
          r0).Pairwise (fun a b => infCmp a b = .lt)
  | [], done, r0, hp, hr0s, hr0 => by
    simpa using ⟨fun y => by simpa using hr0 y, hr0s⟩
  | i :: rest, done, r0, hp, hr0s, hr0 => by
    rw [List.foldl_cons]
    have hassoc : (done ++ [i]) ++ rest = done ++ i :: rest := by simp
    by_cases hm : valMemB v i.vals
    · rw [if_pos hm]
      have hne : ∀ u ∈ r0, infCmp i u ≠ .eq := by
        intro u hu he
        have hud : u ∈ done := ((hr0 u).mp hu).1
        have hlt9 : infCmp u i = .lt := by
          have := List.pairwise_append.mp hp
          exact this.2.2 u hud i (List.mem_cons_self _ _)
        obtain ⟨h1, h2⟩ := infCmp_eq_iff.mp he
        rw [infCmp_eq_iff.mpr ⟨h1.symm, h2.symm⟩] at hlt9
        exact Ordering.noConfusion hlt9
      have hadd := binAdd_spec infCmp (fun {a b c} => infCmp_lt_trans)
        (fun {a b} => infCmp_lt_gt) r0 i hr0s
      have hmem : ∀ y, y ∈ (infsAdd r0 i).2 ↔
          y ∈ (done ++ [i]) ∧ valMemB v y.vals = true := by
        intro y
        unfold infsAdd
        rw [binAdd_mem infCmp (fun {a b c} => infCmp_lt_trans)
          (fun {a b} => infCmp_lt_gt) r0 i hr0s y]
        constructor
        · rintro (hy | ⟨_, rfl⟩)
          · obtain ⟨hyd, hyp⟩ := (hr0 y).mp hy
            exact ⟨List.mem_append.mpr (.inl hyd), hyp⟩
          · exact ⟨List.mem_append.mpr (.inr (List.mem_singleton.mpr rfl)),
              hm⟩
        · rintro ⟨hy, hyp⟩
          rcases List.mem_append.mp hy with hy | hy
          · exact .inl ((hr0 y).mpr ⟨hy, hyp⟩)
          · exact .inr ⟨hne, List.mem_singleton.mp hy⟩
      have := infsVal_go v rest (done ++ [i]) (infsAdd r0 i).2
        (hassoc ▸ hp) hadd.2.2 hmem
      exact ⟨fun y => by rw [(this.1 y)]; rw [hassoc], this.2⟩
    · rw [if_neg hm]
      have hmem : ∀ y, y ∈ r0 ↔
          y ∈ (done ++ [i]) ∧ valMemB v y.vals = true := by
        intro y
        rw [hr0 y]
        constructor
        · rintro ⟨hyd, hyp⟩
          exact ⟨List.mem_append.mpr (.inl hyd), hyp⟩
        · rintro ⟨hy, hyp⟩
          rcases List.mem_append.mp hy with hy | hy
          · exact ⟨hy, hyp⟩
          · rw [List.mem_singleton.mp hy] at hyp
            exact absurd hyp (by simpa using hm)
      have := infsVal_go v rest (done ++ [i]) r0 (hassoc ▸ hp) hr0s hmem
      exact ⟨fun y => by rw [(this.1 y)]; rw [hassoc], this.2⟩

/-- C2 counterexample: on the two-step chain `B=y ⇐ P=1`, `C=z ⇐ B=y`
(with `P=1` the only independent value), `namsInd` assigns
`(P=1).infs = {B=y ⇐ P=1}` only.  The claim requires the set to be
closed under following conclusions — `B=y ⇐ P=1` is in the set, its
conclusion `B=y` is referenced by `C=z ⇐ B=y`, yet that inference is
not in the computed set, so the computed set is not the claimed
closure. -/
theorem C2_counterexample :
    namsInd c2nams c2infs = some ([c2P1], [(c2P1, [c2i1])]) ∧
    c2i1 ∈ [c2i1] ∧
    valMemB c2i1.val c2i2.vals = true ∧
    c2i2 ∈ c2infs ∧
    c2i2 ∉ [c2i1] := by decide

/-- C2 (amended): after independence analysis succeeds, for every value
`v` in the assignment computed by `namsInd` via `infsVal`, the set
`v.infs` is exactly the sorted set of inferences one of whose conditions
is `v` itself — the single direct-reference pass; no closure under
conclusions is applied (the worklist of `infsVal` never grows). -/
theorem C2_infsVal_direct :
    ∀ (nams : List (Sym × List Val)) (infs : List Inf),
      infs.Pairwise (fun a b => infCmp a b = .lt) →
      ∀ ind via9, namsInd nams infs = some (ind, via9) →
      ∀ v s, (v, s) ∈ via9 →
        (∀ i, i ∈ s ↔ i ∈ infs ∧ valMemB v i.vals = true) ∧
        s.Pairwise (fun a b => infCmp a b = .lt) := by
  intro nams infs hs ind via9 h v s hvs
  have hvia : via9 = ind.map (fun v => (v, infsVal v infs [])) := by
    unfold namsInd at h
    cases hf : nams.foldlM
        (fun (r : List Val) nv =>
          nv.2.foldlM
            (fun (r : List Val) v =>
              if infs.any (fun i => valCmp v i.val = .eq) then pure r
              else
                let p := valsAdd r v
                if p.1 = v then pure p.2 else none)
            r)
        [] with
    | none => rw [hf] at h; simp at h
    | some r =>
      rw [hf] at h
      simp only [Option.pure_def, Option.bind_eq_bind, Option.some_bind,
        Option.some.injEq, Prod.mk.injEq] at h
      obtain ⟨h1, h2⟩ := h
      subst h1
      exact h2.symm
  subst hvia
  obtain ⟨v2, hv2, heq⟩ := List.mem_map.mp hvs
  have h1 : v2 = v := congrArg Prod.fst heq
  have h2 : infsVal v2 infs [] = s := congrArg Prod.snd heq
  subst h1
  subst h2
  exact infsVal_go v2 infs [] [] (by simpa using hs) List.Pairwise.nil
    (by simp)

/-! ## Claim C10 — termination of `infsValTrnAdd` -/

/-- Membership in `binAdd`'s result list, without any sortedness
assumption: only old elements and the inserted one can appear. -/
theorem binAdd_mem_sub {α : Type} (cmp : α → α → Ordering) (l : List α)
    (x y : α) : y ∈ (binAdd cmp l x).2 → y ∈ l ∨ y = x := by
  unfold binAdd
  cases binSearchIns cmp l x (l.length + 1) 0 l.length with
  | inl i => exact fun hy => .inl hy
  | inr p =>
    intro hy
    rcases List.mem_append.mp hy with hy | hy
    · exact .inl (List.mem_of_mem_take hy)
    · rcases List.mem_cons.mp hy with rfl | hy
      · exact .inr rfl
      · exact .inl (List.mem_of_mem_drop hy)

/-- The inner `j` loop of one `infsValTrnAdd` round: any value in the
next frontier comes from the old accumulator or is the conclusion of a
single-condition inference on `x`. -/
theorem trnRoundInner_mem (x : Val) :
    ∀ (il : List Inf) (acc : List Inf × List Val) (w : Val),
      w ∈ (il.foldl
        (fun acc2 j =>
          if j.vals = [x] then
            ((infsAdd acc2.1 j).2, (valsAdd acc2.2 j.val).2)
          else acc2) acc).2 →
      w ∈ acc.2 ∨ ∃ i ∈ il, i.vals = [x] ∧ i.val = w
  | [], acc, w => fun h => .inl h
  | j :: il, acc, w => by
    rw [List.foldl_cons]
    intro h
    by_cases hj : j.vals = [x]
    · rw [if_pos hj] at h
      rcases trnRoundInner_mem x il _ w h with h2 | ⟨i, hi, hiv, hic⟩
      · rcases binAdd_mem_sub valCmp acc.2 j.val w h2 with h3 | rfl
        · exact .inl h3
        · exact .inr ⟨j, List.mem_cons_self _ _, hj, rfl⟩
      · exact .inr ⟨i, List.mem_cons_of_mem _ hi, hiv, hic⟩
    · rw [if_neg hj] at h
      rcases trnRoundInner_mem x il _ w h with h2 | ⟨i, hi, hiv, hic⟩
      · exact .inl h2
      · exact .inr ⟨i, List.mem_cons_of_mem _ hi, hiv, hic⟩

/-- Any value of the next frontier computed by `trnRound` is the
conclusion of a single-condition inference whose condition is in the
current frontier. -/
theorem trnRound_mem (infs : List Inf) :
    ∀ (v1 : List Val) (acc : List Inf × List Val) (w : Val),
      w ∈ (v1.foldl
        (fun acc x =>
          infs.foldl
            (fun acc2 j =>
              if j.vals = [x] then
                ((infsAdd acc2.1 j).2, (valsAdd acc2.2 j.val).2)
              else acc2) acc) acc).2 →
      w ∈ acc.2 ∨ ∃ x ∈ v1, ∃ i ∈ infs, i.vals = [x] ∧ i.val = w
  | [], acc, w => fun h => .inl h
  | x :: v1, acc, w => by
    rw [List.foldl_cons]
    intro h
    rcases trnRound_mem infs v1 _ w h with h2 | ⟨y, hy, i, hi, hiv, hic⟩
    · rcases trnRoundInner_mem x infs acc w h2 with h3 | ⟨i, hi, hiv, hic⟩
      · exact .inl h3
      · exact .inr ⟨x, List.mem_cons_self _ _, i, hi, hiv, hic⟩
    · exact .inr ⟨y, List.mem_cons_of_mem _ hy, i, hi, hiv, hic⟩

theorem trnRound_mem_frontier (infs : List Inf) (v1 : List Val)
    (r : List Inf) (w : Val) (h : w ∈ (trnRound infs v1 r).2) :
    ∃ x ∈ v1, ∃ i ∈ infs, i.vals = [x] ∧ i.val = w := by
  rcases trnRound_mem infs v1 (r, []) w h with h2 | h2
  · exact absurd h2 (List.not_mem_nil w)
  · exact h2

/-- Termination of the `infsValTrnAdd` loop under a rank function that
decreases along single-condition inferences. -/
theorem trnLoop_term (infs : List Inf) (rank : Val → Nat)
    (hrank : ∀ i ∈ infs, ∀ a ∈ i.vals, i.vals = [a] →
      rank i.val < rank a) :
    ∀ (R fuel : Nat) (v1 : List Val) (r : List Inf),
      (∀ w ∈ v1, rank w ≤ R) → R < fuel →
      (infsValTrnLoop fuel infs v1 r).isSome = true := by
  intro R
  induction R with
  | zero =>
    intro fuel v1 r hv hf
    match fuel, hf with
    | fuel + 1, _ =>
      rw [infsValTrnLoop]
      have hempty : (trnRound infs v1 r).2 = [] := by
        rw [List.eq_nil_iff_forall_not_mem]
        intro w hw
        obtain ⟨x, hx, i, hi, hiv, hic⟩ :=
          trnRound_mem_frontier infs v1 r w hw
        have := hrank i hi x (hiv ▸ List.mem_singleton.mpr rfl) hiv
        have := hv x hx
        omega
      rw [if_pos hempty]
      rfl
  | succ R ih =>
    intro fuel v1 r hv hf
    match fuel, hf with
    | fuel + 1, _ =>
      rw [infsValTrnLoop]
      by_cases hempty : (trnRound infs v1 r).2 = []
      · rw [if_pos hempty]; rfl
      · rw [if_neg hempty]
        apply ih fuel _ _ _ (by omega)
        intro w hw
        obtain ⟨x, hx, i, hi, hiv, hic⟩ :=
          trnRound_mem_frontier infs v1 r w hw
        subst hic
        have := hrank i hi x (hiv ▸ List.mem_singleton.mpr rfl) hiv
        have := hv x hx
        omega

/-- The inner loop of a round: the next-frontier component does not
depend on the accumulated inference component. -/
theorem trnInner_snd (x : Val) :
    ∀ (il : List Inf) (a1 a2 : List Inf × List Val), a1.2 = a2.2 →
      (il.foldl
        (fun acc2 j =>
          if j.vals = [x] then
            ((infsAdd acc2.1 j).2, (valsAdd acc2.2 j.val).2)
          else acc2) a1).2 =
      (il.foldl
        (fun acc2 j =>
          if j.vals = [x] then
            ((infsAdd acc2.1 j).2, (valsAdd acc2.2 j.val).2)
          else acc2) a2).2
  | [], a1, a2, h => h
  | j :: il, a1, a2, h => by
    rw [List.foldl_cons, List.foldl_cons]
    by_cases hj : j.vals = [x]
    · rw [if_pos hj, if_pos hj]
      exact trnInner_snd x il _ _ (by simp [h])
    · rw [if_neg hj, if_neg hj]
      exact trnInner_snd x il _ _ h

/-- The next-frontier component of a round does not depend on the
accumulator. -/
theorem trnRound_snd (infs : List Inf) :
    ∀ (v1 : List Val) (a1 a2 : List Inf × List Val), a1.2 = a2.2 →
      (v1.foldl
        (fun acc x =>
          infs.foldl
            (fun acc2 j =>
              if j.vals = [x] then
                ((infsAdd acc2.1 j).2, (valsAdd acc2.2 j.val).2)
              else acc2) acc) a1).2 =
      (v1.foldl
        (fun acc x =>
          infs.foldl
            (fun acc2 j =>
              if j.vals = [x] then
                ((infsAdd acc2.1 j).2, (valsAdd acc2.2 j.val).2)
              else acc2) acc) a2).2
  | [], a1, a2, h => h
  | x :: v1, a1, a2, h => by
    rw [List.foldl_cons, List.foldl_cons]
    exact trnRound_snd infs v1 _ _ (trnInner_snd x infs a1 a2 h)

/-- The frontiers of the cyclic example alternate between `{A=x}` and
`{B=y}` forever. -/
theorem cyc_frontier_alternate :
    ∀ n, trnFrontier cycInfs cycAx n = [cycAx] ∨
      trnFrontier cycInfs cycAx n = [cycBy] := by
  intro n
  induction n with
  | zero => exact .inl rfl
  | succ n ih =>
    rcases ih with h | h
    · right
      show (trnRound cycInfs (trnFrontier cycInfs cycAx n) []).2 = [cycBy]
      rw [h]
      decide
    · left
      show (trnRound cycInfs (trnFrontier cycInfs cycAx n) []).2 = [cycAx]
      rw [h]
      decide

theorem cyc_loop_none :
    ∀ (fuel : Nat) (v1 : List Val) (r : List Inf),
      v1 = [cycAx] ∨ v1 = [cycBy] →
      infsValTrnLoop fuel cycInfs v1 r = none := by
  intro fuel
  induction fuel with
  | zero => intro v1 r _; rfl
  | succ fuel ih =>
    rintro v1 r (rfl | rfl) <;> rw [infsValTrnLoop]
    · have h2 : (trnRound cycInfs [cycAx] r).2 = [cycBy] := by
        have := trnRound_snd cycInfs [cycAx] (r, []) (([] : List Inf), [])
          rfl
        unfold trnRound
        rw [this]
        decide
      rw [h2]
      simp only [if_neg (by simp : ¬([cycBy] : List Val) = [])]
      exact ih [cycBy] _ (.inr rfl)
    · have h2 : (trnRound cycInfs [cycBy] r).2 = [cycAx] := by
        have := trnRound_snd cycInfs [cycBy] (r, []) (([] : List Inf), [])
          rfl
        unfold trnRound
        rw [this]
        decide
      rw [h2]
      simp only [if_neg (by simp : ¬([cycAx] : List Val) = [])]
      exact ih [cycAx] _ (.inl rfl)

/-- C10 counterexample: on the single-condition cycle
`B=y ⇐ A=x`, `A=x ⇐ B=y`, the outer loop of `infsValTrnAdd` started at
`A=x` never reaches an empty frontier: the source loops forever (the
fuelled model returns `none` for every fuel). -/
theorem C10_counterexample :
    (¬ ∃ fuel, (infsValTrnAdd fuel cycAx cycInfs []).isSome = true) ∧
    (¬ ∃ n, trnFrontier cycInfs cycAx n = []) := by
  constructor
  · rintro ⟨fuel, hf⟩
    rw [infsValTrnAdd, cyc_loop_none fuel [cycAx] [] (.inl rfl)] at hf
    exact Bool.noConfusion hf
  · rintro ⟨n, hn⟩
    rcases cyc_frontier_alternate n with h | h <;> rw [hn] at h <;>
      exact List.noConfusion h

/-- C10 (amended): `infsValTrnAdd` terminates — its outer loop reaches
an empty frontier — for every starting Value and every finite inference
set whose single-condition step relation is acyclic, witnessed by a rank
function that strictly decreases from the condition to the conclusion of
every single-condition inference; a fuel exceeding the start's rank
suffices.  (Single-condition cycles, as in `C10_counterexample`, make
the loop run forever.) -/
theorem C10_trnAdd_terminates :
    ∀ (infs : List Inf) (v : Val) (r : List Inf) (rank : Val → Nat)
      (fuel : Nat),
      (∀ i ∈ infs, ∀ a ∈ i.vals, i.vals = [a] → rank i.val < rank a) →
      rank v < fuel →
      (infsValTrnAdd fuel v infs r).isSome = true := by
  intro infs v r rank fuel hrank hfuel
  exact trnLoop_term infs rank hrank (rank v) fuel [v] r
    (by intro w hw; rw [List.mem_singleton.mp hw]) hfuel

/-- Witness for C10 (amended): on the acyclic chain `B=y ⇐ P=1`,
`C=z ⇐ B=y`, the loop terminates with fuel 4. -/
theorem C10_trnAdd_terminates_witness :
    (infsValTrnAdd 4 c2P1 c2infs []).isSome = true := by
  apply C10_trnAdd_terminates c2infs c2P1 []
    (fun v => if v = c2P1 then 2 else if v = c2By then 1 else 0) 4
  · decide
  · decide

/-- Witness for C2 (amended) on the chain graph: `(P=1).infs` contains
the direct inference and excludes the chained one. -/
theorem C2_infsVal_direct_witness :
    c2i1 ∈ [c2i1] ∧ c2i2 ∉ [c2i1] ∧ (c2i2 ∈ c2infs ∧
      valMemB c2P1 c2i2.vals = false) := by
  have h := C2_infsVal_direct c2nams c2infs (by decide)
    [c2P1] [(c2P1, [c2i1])] (by decide) c2P1 [c2i1] (by decide)
  refine ⟨(h.1 c2i1).mpr ⟨by decide, by decide⟩, ?_, by decide, by decide⟩
  intro hmem
  have := (h.1 c2i2).mp hmem
  exact absurd this.2 (by decide)

/-! ## Claim C9 — termination of `nodBld` -/

/-- `infsResValGo` returns a sublist of its first argument. -/
theorem infsResValGo_sublist (keep : Inf → Bool) :
    ∀ (fuel : Nat) (as bs : List Inf),
      List.Sublist (infsResValGo keep fuel as bs) as
  | 0, as, _ => by
    cases as <;> exact List.nil_sublist _
  | _ + 1, [], _ => List.nil_sublist _
  | _ + 1, _ :: _, [] => List.nil_sublist _
  | fuel + 1, a :: as, b :: bs => by
    rw [infsResValGo]
    cases infCmp a b with
    | lt => exact (infsResValGo_sublist keep fuel as (b :: bs)).cons a
    | gt => exact infsResValGo_sublist keep fuel (a :: as) bs
    | eq =>
      by_cases hk : keep a
      · rw [if_pos hk]
        exact (infsResValGo_sublist keep fuel as bs).cons₂ a
      · rw [if_neg hk]
        exact (infsResValGo_sublist keep fuel as bs).cons a

/-- `infsResVal` returns a sublist of the incoming inference set. -/
theorem infsResVal_sublist (g : Graph) (vals : List Val) (infs : List Inf)
    (val : Val) : List.Sublist (infsResVal g vals infs val) infs :=
  infsResValGo_sublist _ _ infs _

/-- The merge loop of `infsMnsInfs` returns a sublist of its first
argument. -/
theorem infsMnsGo_sublist :
    ∀ (fuel : Nat) (as bs : List Inf),
      List.Sublist (infsMnsGo fuel as bs) as
  | 0, as, _ => by cases as <;> exact List.nil_sublist _
  | _ + 1, [], _ => List.nil_sublist _
  | _ + 1, _ :: _, [] => List.Sublist.refl _
  | fuel + 1, a :: as, b :: bs => by
    rw [infsMnsGo]
    cases infCmp a b with
    | lt => exact (infsMnsGo_sublist fuel as (b :: bs)).cons₂ a
    | gt => exact infsMnsGo_sublist fuel (a :: as) bs
    | eq => exact (infsMnsGo_sublist fuel as bs).cons a

theorem infsMnsInfs_sublist (l1 l2 : List Inf) :
    List.Sublist (infsMnsInfs l1 l2) l1 :=
  infsMnsGo_sublist _ l1 l2

theorem infsSrpInfs_sublist (l1 l2 : List Inf) :
    List.Sublist (infsSrpInfs l1 l2) l1 :=
  List.filter_sublist l1

/-- The sibling fold of `nodBld`'s `dV` computation: once a sibling of
`c` has been seen the accumulator is set, and it always holds a sublist
of `infs`. -/
theorem dVFold_some (g : Graph) (infs : List Inf) (c : Val) :
    ∀ (ss : List Val) (acc : Option (List Inf)),
      (∀ l, acc = some l → List.Sublist l infs) →
      (acc.isSome = true ∨ ∃ s ∈ ss, s ≠ c) →
      ∃ l, ss.foldl
          (fun (a : Option (List Inf)) s =>
            if s = c then a
            else some (infsMnsInfs (a.getD infs) (g.vi s))) acc = some l ∧
        List.Sublist l infs
  | [], acc, hsub, hor => by
    rcases hor with hs | ⟨s, hs, _⟩
    · obtain ⟨l, hl⟩ := Option.isSome_iff_exists.mp hs
      exact ⟨l, hl, hsub l hl⟩
    · cases hs
  | s :: ss, acc, hsub, hor => by
    rw [List.foldl_cons]
    by_cases hsc : s = c
    · rw [if_pos hsc]
      refine dVFold_some g infs c ss acc hsub ?_
      rcases hor with hs | ⟨u, hu, hune⟩
      · exact .inl hs
      · rcases List.mem_cons.mp hu with rfl | hu
        · exact absurd hsc hune
        · exact .inr ⟨u, hu, hune⟩
    · rw [if_neg hsc]
      refine dVFold_some g infs c ss _ ?_ (.inl rfl)
      intro l hl
      cases hl
      rcases hacc : acc with _ | l0
      · exact infsMnsInfs_sublist infs _
      · exact (infsMnsInfs_sublist _ _).trans (hsub l0 hacc)

/-- Strict sortedness implies distinctness. -/
theorem pairwise_infLt_nodup (l : List Inf)
    (h : l.Pairwise (fun a b => infCmp a b = .lt)) : l.Nodup :=
  h.imp (fun {a b} hab he => by
    rw [he, infCmp_refl] at hab
    exact Ordering.noConfusion hab)

/-- A strictly sorted list contained in another list is no longer than
it. -/
theorem sorted_subset_length_le (l1 l2 : List Inf)
    (h1 : l1.Pairwise (fun a b => infCmp a b = .lt))
    (hsub : ∀ y ∈ l1, y ∈ l2) : l1.length ≤ l2.length :=
  ((pairwise_infLt_nodup l1 h1).subperm hsub).length_le

/-- Dropping a present element that fails the predicate makes `filter`
strictly shorter. -/
theorem filter_length_lt {α : Type} (p : α → Bool) :
    ∀ (l : List α) (x : α), x ∈ l → p x = false →
      (l.filter p).length < l.length
  | [], x, hx, _ => absurd hx (List.not_mem_nil x)
  | a :: l, x, hx, hp => by
    rcases List.mem_cons.mp hx with rfl | hx
    · rw [List.filter_cons_of_neg (by simp [hp])]
      exact Nat.lt_succ_of_le (List.length_filter_le p l)
    · cases hpa : p a
      · rw [List.filter_cons_of_neg (by simp [hpa])]
        exact Nat.lt_succ_of_lt (filter_length_lt p l x hx hp)
      · rw [List.filter_cons_of_pos hpa]
        exact Nat.succ_lt_succ (filter_length_lt p l x hx hp)

/-- Frontier facts for `valsSubValNam`: the result stays inside `vals`,
drops the whole tested name, and is strictly shorter when the tested
value was present. -/
theorem valsSubValNam_shrink (vals : List Val) (c : Val) (infs : List Inf) :
    (∀ w ∈ valsSubValNam vals c infs, w ∈ vals ∧ w.nam ≠ c.nam) ∧
    (c ∈ vals → (valsSubValNam vals c infs).length < vals.length) := by
  constructor
  · intro w hw
    rw [valsSubValNam, List.mem_filter] at hw
    refine ⟨hw.1, ?_⟩
    have := hw.2
    simp only [Bool.and_eq_true, decide_eq_true_eq] at this
    exact this.1
  · intro hc
    rw [valsSubValNam]
    exact filter_length_lt _ vals c hc (by simp)

/-- Frontier facts for `valsSubVal`: the result stays inside `vals`,
never contains the tested value, and is strictly shorter when the tested
value was present. -/
theorem valsSubVal_shrink (vals : List Val) (c : Val) (infs : List Inf) :
    (∀ w ∈ valsSubVal vals c infs, w ∈ vals) ∧
    c ∉ valsSubVal vals c infs ∧
    (c ∈ vals → (valsSubVal vals c infs).length < vals.length) := by
  rw [valsSubVal_eq, valsSubValValueFilter]
  have hcr : c ∉ vals.filter
      (fun v => v ≠ c && infs.any (fun k => valMemB v k.vals)) := by
    intro hmem
    have := (List.mem_filter.mp hmem).2
    simp at this
  by_cases hone : ((vals.filter
      (fun v => v ≠ c && infs.any (fun k => valMemB v k.vals))).filter
        (fun v => v.nam = c.nam)).length = 1
  · rw [if_pos hone]
    refine ⟨fun w hw => List.mem_of_mem_filter (List.mem_of_mem_filter hw),
      fun hmem => hcr (List.mem_of_mem_filter hmem), fun hc => ?_⟩
    calc ((vals.filter _).filter _).length
        ≤ (vals.filter (fun v =>
            v ≠ c && infs.any (fun k => valMemB v k.vals))).length :=
          List.length_filter_le _ _
      _ < vals.length := filter_length_lt _ vals c hc (by simp)
  · rw [if_neg hone]
    exact ⟨fun w hw => List.mem_of_mem_filter hw, hcr,
      fun hc => filter_length_lt _ vals c hc (by simp)⟩

/-- The inner fold of one `infsValTrnAdd` round keeps the accumulator
sorted and adds only inferences drawn from the scanned list. -/
theorem trnInner_fst (x : Val) :
    ∀ (il : List Inf) (acc : List Inf × List Val),
      acc.1.Pairwise (fun a b => infCmp a b = .lt) →
      (il.foldl
        (fun acc2 j =>
          if j.vals = [x] then
            ((infsAdd acc2.1 j).2, (valsAdd acc2.2 j.val).2)
          else acc2) acc).1.Pairwise (fun a b => infCmp a b = .lt) ∧
      ∀ y ∈ (il.foldl
        (fun acc2 j =>
          if j.vals = [x] then
            ((infsAdd acc2.1 j).2, (valsAdd acc2.2 j.val).2)
          else acc2) acc).1, y ∈ acc.1 ∨ y ∈ il
  | [], acc, h => ⟨h, fun _ hy => .inl hy⟩
  | j :: il, acc, h => by
    rw [List.foldl_cons]
    by_cases hj : j.vals = [x]
    · rw [if_pos hj]
      have hs2 : ((infsAdd acc.1 j).2).Pairwise
          (fun a b => infCmp a b = .lt) :=
        (@binAdd_spec Inf infCmp (fun {a b c} => infCmp_lt_trans)
          (fun {a b} => infCmp_lt_gt) acc.1 j h).2.2
      obtain ⟨hp, hm⟩ := trnInner_fst x il
        ((infsAdd acc.1 j).2, (valsAdd acc.2 j.val).2) hs2
      refine ⟨hp, fun y hy => ?_⟩
      rcases hm y hy with hy2 | hy2
      · rcases binAdd_mem_sub infCmp acc.1 j y hy2 with hy3 | rfl
        · exact .inl hy3
        · exact .inr (List.mem_cons_self _ _)
      · exact .inr (List.mem_cons_of_mem j hy2)
    · rw [if_neg hj]
      obtain ⟨hp, hm⟩ := trnInner_fst x il acc h
      exact ⟨hp, fun y hy => (hm y hy).imp id (List.mem_cons_of_mem j)⟩

/-- One `infsValTrnAdd` round keeps the accumulator sorted and adds only
inferences from `infs`. -/
theorem trnRound_fst (infs : List Inf) :
    ∀ (v1 : List Val) (acc : List Inf × List Val),
      acc.1.Pairwise (fun a b => infCmp a b = .lt) →
      (v1.foldl
        (fun acc x =>
          infs.foldl
            (fun acc2 j =>
              if j.vals = [x] then
                ((infsAdd acc2.1 j).2, (valsAdd acc2.2 j.val).2)
              else acc2) acc) acc).1.Pairwise
          (fun a b => infCmp a b = .lt) ∧
      ∀ y ∈ (v1.foldl
        (fun acc x =>
          infs.foldl
            (fun acc2 j =>
              if j.vals = [x] then
                ((infsAdd acc2.1 j).2, (valsAdd acc2.2 j.val).2)
              else acc2) acc) acc).1, y ∈ acc.1 ∨ y ∈ infs
  | [], acc, h => ⟨h, fun _ hy => .inl hy⟩
  | x :: v1, acc, h => by
    rw [List.foldl_cons]
    obtain ⟨hp1, hm1⟩ := trnInner_fst x infs acc h
    obtain ⟨hp, hm⟩ := trnRound_fst infs v1 _ hp1
    refine ⟨hp, fun y hy => ?_⟩
    rcases hm y hy with hy2 | hy2
    · exact hm1 y hy2
    · exact .inr hy2

/-- The loop of `infsValTrnAdd`, when it terminates, keeps the
accumulator sorted and adds only inferences from `infs`. -/
theorem trnLoop_inv (infs : List Inf) :
    ∀ (fuel : Nat) (v1 : List Val) (r r2 : List Inf),
      infsValTrnLoop fuel infs v1 r = some r2 →
      r.Pairwise (fun a b => infCmp a b = .lt) →
      r2.Pairwise (fun a b => infCmp a b = .lt) ∧
        ∀ y ∈ r2, y ∈ r ∨ y ∈ infs
  | 0, _, _, _, h => absurd h (Option.noConfusion)
  | fuel + 1, v1, r, r2, h => by
    intro hs
    rw [infsValTrnLoop] at h
    obtain ⟨hp, hm⟩ := trnRound_fst infs v1 (r, []) hs
    by_cases he : (trnRound infs v1 r).2 = []
    · rw [if_pos he] at h
      cases h
      exact ⟨hp, hm⟩
    · rw [if_neg he] at h
      obtain ⟨hp2, hm2⟩ := trnLoop_inv infs fuel _ _ r2 h hp
      refine ⟨hp2, fun y hy => ?_⟩
      rcases hm2 y hy with hy2 | hy2
      · exact hm y hy2
      · exact .inr hy2

/-- The `j` loop of `nodBld` succeeds given a rank function bounding the
conclusions of `infs` below the inner fuel `tf`. -/
theorem trnLoopJ_ok (infs : List Inf) (rank : Val → Nat) (tf : Nat)
    (hrank : ∀ i ∈ infs, ∀ a ∈ i.vals, i.vals = [a] → rank i.val < rank a)
    (htf : ∀ i ∈ infs, rank i.val < tf) :
    ∀ (fuel j : Nat) (cur : List Inf),
      cur.Pairwise (fun a b => infCmp a b = .lt) →
      (∀ y ∈ cur, y ∈ infs) →
      infs.length + 1 ≤ fuel + j → 1 ≤ fuel →
      (trnLoopJ tf fuel infs j cur).isSome = true := by
  intro fuel
  induction fuel with
  | zero => intro j cur _ _ _ h1; exact absurd h1 (by omega)
  | succ fuel ih =>
    intro j cur hsort hsub hlen _
    rw [trnLoopJ]
    by_cases h : j < cur.length
    · rw [dif_pos h]
      have hmem : cur.get ⟨j, h⟩ ∈ infs := hsub _ (cur.get_mem j h)
      have hterm : (infsValTrnAdd tf (cur.get ⟨j, h⟩).val infs
          cur).isSome = true :=
        trnLoop_term infs rank hrank (rank (cur.get ⟨j, h⟩).val) tf
          [(cur.get ⟨j, h⟩).val] cur
          (fun w hw => by rw [List.mem_singleton.mp hw])
          (htf _ hmem)
      obtain ⟨cur2, hcur2⟩ := Option.isSome_iff_exists.mp hterm
      rw [hcur2]
      obtain ⟨hp2, hm2⟩ := trnLoop_inv infs tf _ cur cur2 hcur2 hsort
      have hcl : cur.length ≤ infs.length :=
        sorted_subset_length_le cur infs hsort hsub
      exact ih (j + 1) cur2 hp2
        (fun y hy => (hm2 y hy).elim (fun h2 => hsub y h2) id)
        (by omega) (by omega)
    · rw [dif_neg h]
      rfl

/-- `trnInflate` succeeds on a sorted sub-frontier of `infs` under the
rank hypothesis. -/
theorem trnInflate_ok (infs cur : List Inf) (rank : Val → Nat) (tf : Nat)
    (hrank : ∀ i ∈ infs, ∀ a ∈ i.vals, i.vals = [a] → rank i.val < rank a)
    (htf : ∀ i ∈ infs, rank i.val < tf)
    (hsort : cur.Pairwise (fun a b => infCmp a b = .lt))
    (hsub : ∀ y ∈ cur, y ∈ infs) :
    (trnInflate tf infs cur).isSome = true :=
  trnLoopJ_ok infs rank tf hrank htf (cur.length + infs.length + 1) 0 cur
    hsort hsub (by omega) (by omega)

theorem bind_isSome {α β : Type} (a : Option α) (f : α → Option β)
    (ha : a.isSome = true)
    (hf : ∀ x, a = some x → (f x).isSome = true) :
    (a >>= f).isSome = true := by
  obtain ⟨x, hx⟩ := Option.isSome_iff_exists.mp ha
  rw [hx]
  exact hf x hx

theorem map_isSome {α β : Type} (f : α → β) (o : Option α)
    (h : o.isSome = true) : (o.map f).isSome = true := by
  obtain ⟨x, hx⟩ := Option.isSome_iff_exists.mp h
  rw [hx]
  rfl

/-- The fold inside `infsResValNam` keeps a sublist of `infs` in the
accumulator. -/
theorem resNamFold_sublist (g : Graph) (vals : List Val) (infs : List Inf)
    (c : Val) :
    ∀ (ss : List Val) (acc : Option (List Inf)),
      (∀ l, acc = some l → List.Sublist l infs) →
      ∀ l, ss.foldl
        (fun (r : Option (List Inf)) s =>
          if s = c then r
          else if !valMemB s vals then r
          else some (infsResVal g vals (r.getD infs) s)) acc = some l →
      List.Sublist l infs
  | [], acc, hsub, l, h => hsub l h
  | s :: ss, acc, hsub, l, h => by
    rw [List.foldl_cons] at h
    by_cases hsc : s = c
    · rw [if_pos hsc] at h
      exact resNamFold_sublist g vals infs c ss acc hsub l h
    · rw [if_neg hsc] at h
      by_cases hvm : !valMemB s vals
      · rw [if_pos hvm] at h
        exact resNamFold_sublist g vals infs c ss acc hsub l h
      · rw [if_neg hvm] at h
        refine resNamFold_sublist g vals infs c ss _ ?_ l h
        intro l0 h0
        cases h0
        rcases hacc : acc with _ | l1
        · exact infsResVal_sublist g vals infs s
        · exact (infsResVal_sublist g vals _ s).trans (hsub l1 hacc)

/-- `infsResValNam` returns a sublist of the incoming inference set. -/
theorem infsResValNam_sublist (g : Graph) (vals : List Val)
    (infs : List Inf) (c : Val) :
    List.Sublist (infsResValNam g vals infs c) infs := by
  rw [infsResValNam]
  cases hf : (g.namVals c.nam).foldl
      (fun (r : Option (List Inf)) s =>
        if s = c then r
        else if !valMemB s vals then r
        else some (infsResVal g vals (r.getD infs) s)) none with
  | none => exact List.nil_sublist _
  | some l =>
    exact resNamFold_sublist g vals infs c _ none
      (fun l0 h0 => Option.noConfusion h0) l hf

/-- The stripped child inference set is always a sublist of `infs`. -/
theorem srpIte_sublist (dV iVl infs : List Inf) (cond : Prop)
    [Decidable cond] (h : List.Sublist dV infs) :
    List.Sublist (if cond then infsSrpInfs dV iVl else dV) infs := by
  split
  · exact (infsSrpInfs_sublist _ _).trans h
  · exact h

/-- `inflOpt` never takes the error exit when the frontier is a sorted
subset of `infs` and the rank hypothesis holds. -/
theorem inflOpt_isSome (tf : Nat) (infs cur : List Inf) (rank : Val → Nat)
    (hrank : ∀ i ∈ infs, ∀ a ∈ i.vals, i.vals = [a] → rank i.val < rank a)
    (htf : ∀ i ∈ infs, rank i.val < tf)
    (hsort : cur.Pairwise (fun a b => infCmp a b = .lt))
    (hsub : ∀ y ∈ cur, y ∈ infs) :
    (inflOpt tf infs cur).isSome = true := by
  rw [inflOpt]
  split
  · rfl
  · exact map_isSome _ _ (trnInflate_ok infs cur rank tf hrank htf
      hsort hsub)

/-- `childOpt` succeeds whenever the guarded recursion does. -/
theorem childOpt_isSome
    (child : List Val → List Inf → Nat → BSt → Option (Nod × BSt))
    (fr : Option (List Val)) (i : List Inf) (bd : Nat) (st : BSt)
    (h : ∀ f, fr = some f → (child f i bd st).isSome = true) :
    (childOpt child fr i bd st).isSome = true := by
  cases fr with
  | none => rfl
  | some f => exact map_isSome _ _ (h f rfl)

/-- One candidate of `nodBld`'s loop evaluates without hitting an error
exit, given the rank hypothesis, a sibling for the tested value, and
recursion that succeeds on the strictly smaller frontiers. -/
theorem candStep_ok (g : Graph) (tf : Nat)
    (child : List Val → List Inf → Nat → BSt → Option (Nod × BSt))
    (rank : Val → Nat) (vals : List Val) (infs : List Inf) (c : Val)
    (hrank : ∀ i ∈ infs, ∀ a ∈ i.vals, i.vals = [a] → rank i.val < rank a)
    (htf : ∀ i ∈ infs, rank i.val < tf)
    (hsort : infs.Pairwise (fun a b => infCmp a b = .lt))
    (hc : c ∈ vals)
    (hsib : ∃ s ∈ g.namVals c.nam, s ≠ c)
    (hchild : ∀ v i, (∀ w ∈ v, w ∈ vals) → v.length < vals.length →
      List.Sublist i infs → ∀ (b : Nat) (s : BSt),
        (child v i b s).isSome = true)
    (bd : Nat) (st : BSt) :
    (candStep g tf child vals infs bd c st).isSome = true := by
  simp only [candStep]
  apply bind_isSome
  · exact inflOpt_isSome tf infs _ rank hrank htf
      (List.Pairwise.sublist (infsResVal_sublist g vals infs c) hsort)
      (fun y hy => (infsResVal_sublist g vals infs c).subset hy)
  · intro iV _
    apply bind_isSome
    · exact inflOpt_isSome tf infs _ rank hrank htf
        (List.Pairwise.sublist (infsResValNam_sublist g vals infs c) hsort)
        (fun y hy => (infsResValNam_sublist g vals infs c).subset hy)
    · intro iO _
      apply bind_isSome
      · obtain ⟨l, hl, _⟩ := dVFold_some g infs c (g.namVals c.nam) none
          (fun l0 h0 => Option.noConfusion h0) (.inr hsib)
        rw [hl]; rfl
      · intro dV hdV
        obtain ⟨l, hl, hlsub⟩ := dVFold_some g infs c (g.namVals c.nam)
          none (fun l0 h0 => Option.noConfusion h0) (.inr hsib)
        rw [hl] at hdV
        obtain rfl : l = dV := Option.some.inj hdV
        repeat' split
        all_goals
          first
          | rfl
          | (apply bind_isSome
             · apply childOpt_isSome
               intro f hf
               first
               | (injection hf with hf
                  subst hf
                  first
                  | exact hchild _ _
                      (fun w hw => ((valsSubValNam_shrink vals c _).1 w hw).1)
                      ((valsSubValNam_shrink vals c _).2 hc)
                      ((infsSrpInfs_sublist _ _).trans hlsub) _ _
                  | exact hchild _ _
                      (fun w hw => ((valsSubValNam_shrink vals c _).1 w hw).1)
                      ((valsSubValNam_shrink vals c _).2 hc) hlsub _ _)
               | injection hf
             · intro pV _
               apply bind_isSome
               · apply childOpt_isSome
                 intro f hf
                 first
                 | (injection hf with hf
                    subst hf
                    first
                    | exact hchild _ _
                        (fun w hw => (valsSubVal_shrink vals c _).1 w hw)
                        ((valsSubVal_shrink vals c _).2.2 hc)
                        ((infsSrpInfs_sublist _ _).trans
                          (infsMnsInfs_sublist infs _)) _ _
                    | exact hchild _ _
                        (fun w hw => (valsSubVal_shrink vals c _).1 w hw)
                        ((valsSubVal_shrink vals c _).2.2 hc)
                        (infsMnsInfs_sublist infs _) _ _)
                 | injection hf
               · intro pO _
                 repeat' split
                 all_goals rfl)

/-- The candidate loop succeeds when every candidate's evaluation
does. -/
theorem nodBldGo_ok (g : Graph) (tf : Nat)
    (child : List Val → List Inf → Nat → BSt → Option (Nod × BSt))
    (vals : List Val) (infs : List Inf) (q : Bool) :
    ∀ (cands : List Val) (best : Nod) (bd : Nat) (st : BSt),
      (∀ c ∈ cands, ∀ (bd2 : Nat) (st2 : BSt),
        (candStep g tf child vals infs bd2 c st2).isSome = true) →
      (nodBldGo g tf child vals infs q cands best bd st).isSome = true
  | [], _, _, _, _ => rfl
  | c :: rest, best, bd, st, h => by
    rw [nodBldGo]
    apply bind_isSome
    · exact h c (List.mem_cons_self c rest) bd st
    · rintro ⟨out, st2⟩ -
      cases out with
      | ok r =>
        dsimp only
        split
        · split
          · rfl
          · exact map_isSome _ _ (nodBldGo_ok g tf child vals infs q rest
              r r.d st2 (fun c2 hc2 => h c2 (List.mem_cons_of_mem c hc2)))
        · exact map_isSome _ _ (nodBldGo_ok g tf child vals infs q rest
            best bd st2 (fun c2 hc2 => h c2 (List.mem_cons_of_mem c hc2)))
      | emptyFrontier =>
        exact map_isSome _ _ (nodBldGo_ok g tf child vals infs q rest
          best bd st2 (fun c2 hc2 => h c2 (List.mem_cons_of_mem c hc2)))
      | noTestChild =>
        exact map_isSome _ _ (nodBldGo_ok g tf child vals infs q rest
          best bd st2 (fun c2 hc2 => h c2 (List.mem_cons_of_mem c hc2)))
      | overBound d bd3 =>
        exact map_isSome _ _ (nodBldGo_ok g tf child vals infs q rest
          best bd st2 (fun c2 hc2 => h c2 (List.mem_cons_of_mem c hc2)))

/-- `nodBld` succeeds — never takes an error exit and never runs out of
recursion depth — with fuel above the frontier size, whenever the
single-condition step relation of `infs` is acyclic (rank function
below `tf`), `infs` is sorted, and every value of the frontier has a
sibling under its name. -/
theorem nodBldF_ok (g : Graph) (tf : Nat) (rank : Val → Nat) (q : Bool) :
    ∀ (fuel : Nat) (vals : List Val) (infs : List Inf),
      (∀ i ∈ infs, ∀ a ∈ i.vals, i.vals = [a] → rank i.val < rank a) →
      (∀ i ∈ infs, rank i.val < tf) →
      infs.Pairwise (fun a b => infCmp a b = .lt) →
      (∀ v ∈ vals, ∃ s ∈ g.namVals v.nam, s ≠ v) →
      vals.length < fuel →
      ∀ (bd : Nat) (st : BSt),
        (nodBldF g tf fuel vals infs bd q st).isSome = true := by
  intro fuel
  induction fuel with
  | zero =>
    intro vals infs _ _ _ _ hlen
    exact absurd hlen (by omega)
  | succ fuel ih =>
    intro vals infs hrank htf hsort hsib hlen bd st
    rw [nodBldF]
    cases hfnd : bldsFnd st.blds vals infs with
    | some nod => rfl
    | none =>
      dsimp only
      have hgo := nodBldGo_ok g tf
        (fun v i b s => nodBldF g tf fuel v i b q s) vals infs q
        (sortBy (fun a b => valsInfsCmp g a b ≠ .gt) vals)
        (emptyNod st.ctr) bd (BSt.mk st.blds (st.ctr + 1))
        (fun c hcm bd2 st2 => candStep_ok g tf _ rank vals infs c
          hrank htf hsort (mem_sortBy.mp hcm)
          (hsib c (mem_sortBy.mp hcm))
          (fun v i hv hlen2 hsubl b s =>
            ih v i (fun j hj => hrank j (hsubl.subset hj))
              (fun j hj => htf j (hsubl.subset hj))
              (List.Pairwise.sublist hsubl hsort)
              (fun w hw => hsib w (hv w hw))
              (by omega) b s)
          bd2 st2)
      obtain ⟨p, hp⟩ := Option.isSome_iff_exists.mp hgo
      rw [hp]
      obtain ⟨r, st2, tr⟩ := p
      rfl

/-- If the `infsValTrnAdd` call at the current index diverges, the whole
`j` loop returns the error exit for every fuel. -/
theorem trnLoopJ_stuck (tf : Nat) :
    ∀ (fuel : Nat) (infs : List Inf) (j : Nat) (cur : List Inf)
      (h : j < cur.length),
      infsValTrnAdd tf (cur.get ⟨j, h⟩).val infs cur = none →
      trnLoopJ tf fuel infs j cur = none
  | 0, _, _, _, _, _ => rfl
  | fuel + 1, infs, j, cur, h, hnone => by
    rw [trnLoopJ, dif_pos h, hnone]

/-- On `c9Infs` the loop of `infsValTrnAdd` started inside the cycle
alternates between the frontiers `{A=x}` and `{B=y}` forever. -/
theorem c9_loop_none :
    ∀ (fuel : Nat) (v1 : List Val) (r : List Inf),
      v1 = [cycAx] ∨ v1 = [cycBy] →
      infsValTrnLoop fuel c9Infs v1 r = none := by
  intro fuel
  induction fuel with
  | zero => intro v1 r _; rfl
  | succ fuel ih =>
    rintro v1 r (rfl | rfl) <;> rw [infsValTrnLoop]
    · have h2 : (trnRound c9Infs [cycAx] r).2 = [cycBy] := by
        have := trnRound_snd c9Infs [cycAx] (r, []) (([] : List Inf), [])
          rfl
        unfold trnRound
        rw [this]
        decide
      rw [h2]
      simp only [if_neg (by simp : ¬([cycBy] : List Val) = [])]
      exact ih [cycBy] _ (.inr rfl)
    · have h2 : (trnRound c9Infs [cycBy] r).2 = [cycAx] := by
        have := trnRound_snd c9Infs [cycBy] (r, []) (([] : List Inf), [])
          rfl
        unfold trnRound
        rw [this]
        decide
      rw [h2]
      simp only [if_neg (by simp : ¬([cycAx] : List Val) = [])]
      exact ih [cycAx] _ (.inl rfl)

/-- Inflating the conclusion `A=x` of `c9j1` diverges for every inner
fuel. -/
theorem c9_inflate_none (tf : Nat) :
    trnInflate tf c9Infs [c9j1] = none :=
  trnLoopJ_stuck tf _ c9Infs 0 [c9j1] (by decide)
    (c9_loop_none tf [cycAx] [c9j1] (.inl rfl))

/-- The candidate `P=1` of the cyclic instance takes the error exit for
every inner fuel: its resolved conclusion set is `{c9j1}` and the
inflation diverges. -/
theorem candStep_c9 (tf : Nat)
    (child : List Val → List Inf → Nat → BSt → Option (Nod × BSt))
    (bd : Nat) (st : BSt) :
    candStep c9g tf child [c9P1] c9Infs bd c9P1 st = none := by
  simp only [candStep]
  have h1 : infsResVal c9g [c9P1] c9Infs c9P1 = [c9j1] := by decide
  rw [h1]
  have h2 : inflOpt tf c9Infs [c9j1] = none := by
    rw [inflOpt, if_neg (by decide : ¬([c9j1] : List Inf) = []),
      c9_inflate_none tf]
    rfl
  rw [h2]
  rfl

/-- On the cyclic instance the builder fails for every recursion fuel
and every inner fuel. -/
theorem nodBldF_c9 (tf : Nat) :
    ∀ (fuel bd : Nat) (q : Bool),
      nodBldF c9g tf fuel [c9P1] c9Infs bd q (BSt.mk [] 0) = none
  | 0, _, _ => rfl
  | fuel + 1, bd, q => by
    rw [nodBldF]
    rw [show bldsFnd (BSt.mk ([] : List Bld) 0).blds [c9P1] c9Infs = none
      from rfl]
    dsimp only
    rw [show sortBy (fun a b => valsInfsCmp c9g a b ≠ .gt) [c9P1] = [c9P1]
      from rfl]
    rw [nodBldGo]
    rw [candStep_c9 tf _ bd _]
    rfl

/-- C9 counterexample: the claim says `nodBld` terminates on every
input.  On the frontier `{P=1}` with inferences `A=x ⇐ P=1`,
`B=y ⇐ A=x`, `A=x ⇐ B=y` the recursion on `vals` is indeed
well-founded, but the first candidate's `infsValTrnAdd` call cycles
between `A=x` and `B=y` forever, so the builder never returns no matter
how much fuel either loop is given. -/
theorem C9_counterexample :
    ¬ ∃ (tf fuel bd : Nat) (q : Bool) (r : Nod × BSt),
      nodBldF c9g tf fuel [c9P1] c9Infs bd q (BSt.mk [] 0) = some r := by
  rintro ⟨tf, fuel, bd, q, r, hr⟩
  rw [nodBldF_c9 tf fuel bd q] at hr
  exact Option.noConfusion hr

/-- C9 (amended): every recursive `nodBld` call does receive a strictly
smaller `vals` frontier — `valsSubValNam` keeps no value of the tested
value's name and `valsSubVal` drops at least the tested value, both
staying inside `vals` — so the recursion is well-founded on the size of
`vals` and depth fuel `|vals| + 1` suffices; but `nodBld` terminates
only when the single-condition step relation of `infs` is acyclic
(witnessed by a rank function kept below the inner loop's fuel `tf`),
`infs` is sorted, and every frontier value has a sibling under its
name.  With a single-condition cycle the inner `infsValTrnAdd` loop
inside the candidate evaluation runs forever (`C9_counterexample`). -/
theorem C9_nodBld_terminates :
    (∀ (vals : List Val) (c : Val) (infs : List Inf), c ∈ vals →
      (∀ w ∈ valsSubValNam vals c infs, w ∈ vals ∧ w.nam ≠ c.nam) ∧
      (valsSubValNam vals c infs).length < vals.length ∧
      c ∉ valsSubVal vals c infs ∧
      (∀ w ∈ valsSubVal vals c infs, w ∈ vals) ∧
      (valsSubVal vals c infs).length < vals.length) ∧
    (∀ (g : Graph) (rank : Val → Nat) (tf : Nat) (vals : List Val)
      (infs : List Inf) (bd : Nat) (q : Bool) (st : BSt),
      (∀ i ∈ infs, ∀ a ∈ i.vals, i.vals = [a] → rank i.val < rank a) →
      (∀ i ∈ infs, rank i.val < tf) →
      infs.Pairwise (fun a b => infCmp a b = .lt) →
      (∀ v ∈ vals, ∃ s ∈ g.namVals v.nam, s ≠ v) →
      (nodBldF g tf (vals.length + 1) vals infs bd q st).isSome = true) := by
  constructor
  · intro vals c infs hc
    exact ⟨(valsSubValNam_shrink vals c infs).1,
      (valsSubValNam_shrink vals c infs).2 hc,
      (valsSubVal_shrink vals c infs).2.1,
      (valsSubVal_shrink vals c infs).1,
      (valsSubVal_shrink vals c infs).2.2 hc⟩
  · intro g rank tf vals infs bd q st hrank htf hsort hsib
    exact nodBldF_ok g tf rank q (vals.length + 1) vals infs hrank htf
      hsort hsib (by omega) bd st

/-- Witness for C9 (amended): on the acyclic instance `B=y ⇐ P=1`,
`B=y2 ⇐ P=2` the frontier facts hold at `P=1` and the builder succeeds
with depth fuel 3 and inner fuel 2. -/
theorem C9_nodBld_terminates_witness :
    (valsSubValNam [w9P1, w9P2] w9P1 w9infs).length < 2 ∧
    (nodBldF w9g 2 3 [w9P1, w9P2] w9infs 2 false
      (BSt.mk [] 0)).isSome = true := by
  refine ⟨?_, ?_⟩
  · exact (C9_nodBld_terminates.1 [w9P1, w9P2] w9P1 w9infs
      (by decide)).2.1
  · exact C9_nodBld_terminates.2 w9g
      (fun v => if v.nam = [80] then 1 else 0) 2 [w9P1, w9P2] w9infs 2
      false (BSt.mk [] 0) (by decide) (by decide) (by decide) (by decide)

/-! ## Claim C4 — label coherence of the emitted listing -/

/-- C4 (code bug): the claim — every label operand of a `J` or `T` line
is defined by exactly one `L` line — fails on `cex4Rows`.  The run
succeeds with no diagnostics, yet the listing contains `J,9` and no
`L,9` line at all: `outNod` stores `out->l` into `nod->lbl` without
allocating the label when both branches of the node were already
emitted at its first visit, so a later revisit jumps to a label that is
never defined. -/
theorem C4_label_coherence_bug :
    (mainRun [cex4Rows] false).diags = [] ∧
    Line.J 9 ∈ (mainRun [cex4Rows] false).out ∧
    (∀ i ∈ (mainRun [cex4Rows] false).out, i ≠ Line.L 9) := by
  decide

/-! ## Claim C3 — the depth header -/

theorem bind_eq_some {α β : Type} {a : Option α} {f : α → Option β}
    {b : β} : a >>= f = some b ↔ ∃ x, a = some x ∧ f x = some b := by
  cases a <;> simp

/-- The depth field of a well-formed node measures the worst-case test
count: `d + 1` tests from a test node, none from a bare leaf. -/
theorem wfn_tdepth {n : Nod} (h : WfN n) :
    (n.val.isSome = true → tdepth n = n.d + 1) ∧
    (n.val = none → tdepth n = 0 ∧ n.d = 0) := by
  induction h with
  | leaf id iV iO =>
    exact ⟨fun hs => by simp [Nod.val] at hs, fun _ => ⟨rfl, rfl⟩⟩
  | tip id c iV iO =>
    exact ⟨fun _ => rfl, fun hn => by simp [Nod.val] at hn⟩
  | onlyV id c iV iO a ha hs iha =>
    refine ⟨fun _ => ?_, fun hn => by simp [Nod.val] at hn⟩
    show 1 + max (tdepth a) 0 = (1 + a.d) + 1
    rw [iha.1 hs]
    omega
  | onlyO id c iV iO b hb hs ihb =>
    refine ⟨fun _ => ?_, fun hn => by simp [Nod.val] at hn⟩
    show 1 + max 0 (tdepth b) = (1 + b.d) + 1
    rw [ihb.1 hs]
    omega
  | both id c iV iO a b ha hb hsa hsb iha ihb =>
    refine ⟨fun _ => ?_, fun hn => by simp [Nod.val] at hn⟩
    show 1 + max (tdepth a) (tdepth b) = (1 + max a.d b.d) + 1
    rw [iha.1 hsa, ihb.1 hsb]
    omega

/-- A memoization hit returns a stored node. -/
theorem bldsFnd_mem {blds : List Bld} {vals : List Val}
    {infs : List Inf} {nod : Nod}
    (h : bldsFnd blds vals infs = some nod) : ∃ e ∈ blds, nod = e.2.2 := by
  rw [bldsFnd] at h
  cases hf : blds.find? (fun e => bldCmp (vals, infs) e = .eq) with
  | none => rw [hf] at h; exact Option.noConfusion h
  | some e =>
    rw [hf] at h
    exact ⟨e, List.mem_of_find?_eq_some hf, (Option.some.inj h).symm⟩

/-- `bldsAdd` only inserts the given entry. -/
theorem bldsAdd_mem {blds : List Bld} {b y : Bld}
    (h : y ∈ bldsAdd blds b) : y ∈ blds ∨ y = b := by
  rw [bldsAdd] at h
  rcases List.mem_append.mp h with h | h
  · exact .inl (List.mem_of_mem_take h)
  · rcases List.mem_cons.mp h with rfl | h
    · exact .inr rfl
    · exact .inl (List.mem_of_mem_drop h)

/-- Inversion of `childOpt`. -/
theorem childOpt_eq
    {child : List Val → List Inf → Nat → BSt → Option (Nod × BSt)}
    {fr : Option (List Val)} {i : List Inf} {bd : Nat} {st : BSt}
    {p : Option Nod × BSt} (h : childOpt child fr i bd st = some p) :
    (fr = none ∧ p = (none, st)) ∨
    (∃ f r, fr = some f ∧ child f i bd st = some r ∧
      p = (some r.1, r.2)) := by
  cases fr with
  | none => exact .inl ⟨rfl, (Option.some.inj h).symm⟩
  | some f =>
    rw [childOpt] at h
    cases hc : child f i bd st with
    | none => rw [hc] at h; exact Option.noConfusion h
    | some r =>
      rw [hc] at h
      exact .inr ⟨f, r, rfl, hc, (Option.some.inj h).symm⟩

/-- A successful candidate evaluation preserves the store invariant and
installs only well-formed nodes. -/
theorem candStep_wf {g : Graph} {tf : Nat}
    {child : List Val → List Inf → Nat → BSt → Option (Nod × BSt)}
    {vals : List Val} {infs : List Inf} {bd : Nat} {c : Val} {st : BSt}
    {out : COut} {st2 : BSt}
    (hchild : ∀ v i b s r s2, StWf s → child v i b s = some (r, s2) →
      WfN r ∧ StWf s2)
    (hst : StWf st)
    (h : candStep g tf child vals infs bd c st = some (out, st2)) :
    StWf st2 ∧ ∀ r, out = .ok r → WfN r := by
  simp only [candStep] at h
  simp only [bind_eq_some] at h
  obtain ⟨iV, hiV, h⟩ := h
  obtain ⟨iO, hiO, h⟩ := h
  obtain ⟨dV, hdV, h⟩ := h
  repeat' split at h
  all_goals
    first
    | (simp only [Option.pure_def, Option.some.injEq, Prod.mk.injEq] at h
       obtain ⟨rfl, rfl⟩ := h
       exact ⟨hst, fun r hr => COut.noConfusion hr⟩)
    | (simp only [bind_eq_some] at h
       obtain ⟨pV, hpV, h⟩ := h
       obtain ⟨pO, hpO, h⟩ := h
       have hst1 : StWf (BSt.mk st.blds (st.ctr + 1)) := hst
       have hpVw : StWf pV.2 ∧ ∀ r, pV.1 = some r → WfN r := by
         rcases childOpt_eq hpV with ⟨-, rfl⟩ | ⟨f, r0, -, hc0, rfl⟩
         · exact ⟨hst1, fun r hr => Option.noConfusion hr⟩
         · obtain ⟨hw, hs⟩ := hchild _ _ _ _ r0.1 r0.2 hst1 hc0
           exact ⟨hs, fun r hr => (Option.some.inj hr) ▸ hw⟩
       have hpOw : StWf pO.2 ∧ ∀ r, pO.1 = some r → WfN r := by
         rcases childOpt_eq hpO with ⟨-, rfl⟩ | ⟨f, r0, -, hc0, rfl⟩
         · exact ⟨hpVw.1, fun r hr => Option.noConfusion hr⟩
         · obtain ⟨hw, hs⟩ := hchild _ _ _ _ r0.1 r0.2 hpVw.1 hc0
           exact ⟨hs, fun r hr => (Option.some.inj hr) ▸ hw⟩
       split at h
       · simp only [Option.pure_def, Option.some.injEq, Prod.mk.injEq] at h
         obtain ⟨rfl, rfl⟩ := h
         exact ⟨hpOw.1, fun r hr => COut.noConfusion hr⟩
       · rename_i d hdc
         split at h
         · simp only [Option.pure_def, Option.some.injEq,
             Prod.mk.injEq] at h
           obtain ⟨rfl, rfl⟩ := h
           exact ⟨hpOw.1, fun r hr => COut.noConfusion hr⟩
         · simp only [Option.pure_def, Option.some.injEq,
             Prod.mk.injEq] at h
           obtain ⟨rfl, rfl⟩ := h
           refine ⟨hpOw.1, fun r hr => ?_⟩
           cases COut.ok.inj hr
           cases hV : pV.1 with
           | none =>
             cases hO : pO.1 with
             | none =>
               rw [hV, hO] at hdc
               cases Option.some.inj hdc
               exact WfN.tip st.ctr c iV iO
             | some b =>
               rw [hV, hO] at hdc
               simp only [dCalc] at hdc
               split at hdc
               · rename_i hbs
                 cases Option.some.inj hdc
                 exact WfN.onlyO st.ctr c iV iO b (hpOw.2 b hO) hbs
               · exact Option.noConfusion hdc
           | some a =>
             cases hO : pO.1 with
             | none =>
               rw [hV, hO] at hdc
               simp only [dCalc] at hdc
               split at hdc
               · rename_i has
                 cases Option.some.inj hdc
                 exact WfN.onlyV st.ctr c iV iO a (hpVw.2 a hV) has
               · exact Option.noConfusion hdc
             | some b =>
               rw [hV, hO] at hdc
               simp only [dCalc] at hdc
               split at hdc
               · rename_i hab
                 cases Option.some.inj hdc
                 exact WfN.both st.ctr c iV iO a b (hpVw.2 a hV)
                   (hpOw.2 b hO) hab.1 hab.2
               · exact Option.noConfusion hdc)

/-- The candidate loop preserves the store invariant and returns a
well-formed node. -/
theorem nodBldGo_wf {g : Graph} {tf : Nat}
    {child : List Val → List Inf → Nat → BSt → Option (Nod × BSt)}
    {vals : List Val} {infs : List Inf} {q : Bool}
    (hchild : ∀ v i b s r s2, StWf s → child v i b s = some (r, s2) →
      WfN r ∧ StWf s2) :
    ∀ (cands : List Val) (best : Nod) (bd : Nat) (st : BSt) (r : Nod)
      (st2 : BSt) (tr : List COut),
      StWf st → WfN best →
      nodBldGo g tf child vals infs q cands best bd st =
        some (r, st2, tr) →
      WfN r ∧ StWf st2
  | [], best, bd, st, r, st2, tr, hst, hbest, h => by
    rw [nodBldGo] at h
    simp only [Option.some.injEq, Prod.mk.injEq] at h
    obtain ⟨rfl, rfl, -⟩ := h
    exact ⟨hbest, hst⟩
  | c :: rest, best, bd, st, r, st2, tr, hst, hbest, h => by
    rw [nodBldGo] at h
    rw [bind_eq_some] at h
    obtain ⟨⟨out, stm⟩, hcs, h⟩ := h
    obtain ⟨hstm, hok⟩ := candStep_wf hchild hst hcs
    cases out with
    | ok r0 =>
      have hr0 : WfN r0 := hok r0 rfl
      simp only at h
      split at h
      · split at h
        · simp only [Option.some.injEq, Prod.mk.injEq] at h
          obtain ⟨rfl, rfl, -⟩ := h
          exact ⟨hr0, hstm⟩
        · rcases Option.map_eq_some'.mp h with ⟨⟨r1, st3, tr3⟩, hgo, hp⟩
          cases hp
          exact nodBldGo_wf hchild rest r0 r0.d stm r1 st3 tr3 hstm
            hr0 hgo
      · rcases Option.map_eq_some'.mp h with ⟨⟨r1, st3, tr3⟩, hgo, hp⟩
        cases hp
        exact nodBldGo_wf hchild rest best bd stm r1 st3 tr3 hstm
          hbest hgo
    | emptyFrontier =>
      simp only at h
      rcases Option.map_eq_some'.mp h with ⟨⟨r1, st3, tr3⟩, hgo, hp⟩
      cases hp
      exact nodBldGo_wf hchild rest best bd stm r1 st3 tr3 hstm hbest hgo
    | noTestChild =>
      simp only at h
      rcases Option.map_eq_some'.mp h with ⟨⟨r1, st3, tr3⟩, hgo, hp⟩
      cases hp
      exact nodBldGo_wf hchild rest best bd stm r1 st3 tr3 hstm hbest hgo
    | overBound d0 bd0 =>
      simp only at h
      rcases Option.map_eq_some'.mp h with ⟨⟨r1, st3, tr3⟩, hgo, hp⟩
      cases hp
      exact nodBldGo_wf hchild rest best bd stm r1 st3 tr3 hstm hbest hgo

/-- `nodBld` always returns a well-formed node and preserves the store
invariant. -/
theorem nodBldF_wf {g : Graph} {tf : Nat} {q : Bool} :
    ∀ (fuel : Nat) (vals : List Val) (infs : List Inf) (bd : Nat)
      (st : BSt) (r : Nod) (st2 : BSt),
      StWf st →
      nodBldF g tf fuel vals infs bd q st = some (r, st2) →
      WfN r ∧ StWf st2
  | 0, _, _, _, _, _, _, _, h => Option.noConfusion h
  | fuel + 1, vals, infs, bd, st, r, st2, hst, h => by
    rw [nodBldF] at h
    split at h
    · rename_i nod hfnd
      simp only [Option.some.injEq, Prod.mk.injEq] at h
      obtain ⟨rfl, rfl⟩ := h
      obtain ⟨e, he, rfl⟩ := bldsFnd_mem hfnd
      exact ⟨hst e he, hst⟩
    · dsimp only at h
      split at h
      · exact Option.noConfusion h
      · rename_i p r0 st0 tr0 hgo
        simp only [Option.some.injEq, Prod.mk.injEq] at h
        obtain ⟨rfl, rfl⟩ := h
        have hc : ∀ v i b s rr s2, StWf s →
            nodBldF g tf fuel v i b q s = some (rr, s2) →
            WfN rr ∧ StWf s2 :=
          fun v i b s rr s2 hs hh => nodBldF_wf fuel v i b s rr s2 hs hh
        have hbest : WfN (emptyNod st.ctr) := WfN.leaf st.ctr none none
        have hst1 : StWf (BSt.mk st.blds (st.ctr + 1)) := hst
        obtain ⟨hr0, hst0⟩ := nodBldGo_wf hc _ _ _ _ r0 st0 tr0 hst1
          hbest hgo
        have hr2 : WfN (if r0.val = none then r0.setInfsV infs else r0) := by
          split
          · rename_i hvn
            cases hr0 with
            | leaf id iV iO => exact WfN.leaf id (some infs) iO
            | tip id c iV iO => simp [Nod.val] at hvn
            | onlyV id c iV iO a ha hs => simp [Nod.val] at hvn
            | onlyO id c iV iO b hb hs => simp [Nod.val] at hvn
            | both id c iV iO a b ha hb hsa hsb => simp [Nod.val] at hvn
          · exact hr0
        refine ⟨hr2, fun b hb => ?_⟩
        rcases bldsAdd_mem hb with hb | rfl
        · exact hst0 b hb
        · exact hr2

/-- The emitter never writes a `D` line: the header is printed by
`main` alone. -/
theorem outRun_no_D :
    ∀ (fuel : Nat) (t : OutTask) (st : OutSt) (n : Nat),
      Line.D n ∉ (outRun fuel t st).2
  | 0, _, _, _ => List.not_mem_nil _
  | fuel + 1, .nod nod, st, n => by
    simp only [outRun]
    split
    · simp
    · split
      · intro hl
        rcases List.mem_map.mp hl with ⟨i, -, hi⟩
        exact Line.noConfusion hi
      · split
        · intro hl
          rcases List.mem_cons.mp hl with h | h
          · exact Line.noConfusion h
          · exact outRun_no_D fuel _ _ n h
        · intro hl
          rcases List.mem_cons.mp hl with h | h
          · exact Line.noConfusion h
          · rcases List.mem_append.mp h with h | h
            · exact outRun_no_D fuel _ _ n h
            · rcases List.mem_cons.mp h with h | h
              · exact Line.noConfusion h
              · exact outRun_no_D fuel _ _ n h
  | fuel + 1, .brn infs nod, st, n => by
    simp only [outRun]
    split
    · simp
    · intro hl
      rcases List.mem_cons.mp hl with h | h
      · exact Line.noConfusion h
      · exact outRun_no_D fuel _ _ n h
  | fuel + 1, .brnCon infs nod, st, n => by
    simp only [outRun]
    split
    · intro hl
      rcases List.mem_append.mp hl with h | h
      · rcases List.mem_map.mp h with ⟨i, -, hi⟩
        exact Line.noConfusion hi
      · exact outRun_no_D fuel _ _ n h
    · intro hl
      rcases List.mem_append.mp hl with h | h
      · rcases List.mem_map.mp h with ⟨i, -, hi⟩
        exact Line.noConfusion hi
      · rcases List.mem_cons.mp h with h | h
        · exact Line.noConfusion h
        · exact absurd h (List.not_mem_nil _)

/-- The tail loop of the `O` printer emits only `O` lines. -/
theorem oLinesGo_O : ∀ (prev : Inf) (rest : List Inf) (l : Line),
    l ∈ oLines.oLinesGo prev rest → ∃ a b, l = Line.O a b
  | _, [], l => fun h => absurd h (List.not_mem_nil l)
  | prev, i :: rest, l => by
    rw [oLines.oLinesGo]
    split
    · exact oLinesGo_O i rest l
    · intro h
      rcases List.mem_cons.mp h with rfl | h
      · exact ⟨_, _, rfl⟩
      · exact oLinesGo_O i rest l h

/-- The `O` printer emits only `O` lines. -/
theorem oLines_O : ∀ (infs : List Inf) (l : Line),
    l ∈ oLines infs → ∃ a b, l = Line.O a b
  | [], l => fun h => absurd h (List.not_mem_nil l)
  | i :: rest, l => by
    rw [oLines]
    intro h
    rcases List.mem_cons.mp h with rfl | h
    · exact ⟨_, _, rfl⟩
    · exact oLinesGo_O i rest l h

/-- C3 (amended): on every successful run the header line `D,n` is not
the first output line — it follows the nonempty block of `I` and `O`
lines — and it is the only `D` line; its value is `nod.d + 1` for the
built root `nod`, which equals the worst-case number of tests on a
root-to-leaf path of the built tree when the root carries a test, and 1
(not 0 + 1 over an empty path of tests... the worst-case test count is
0) when the root is a bare conclusion node. -/
theorem C3_depth_header (files : List (List (List Sym))) (q : Bool)
    (nod : Nod) (ht : (mainRun files q).tree = some nod)
    (hd : (mainRun files q).diags = []) :
    ∃ pre body,
      (mainRun files q).out = pre ++ Line.D (nod.d + 1) :: body ∧
      pre ≠ [] ∧
      (∀ l ∈ pre, (∃ a b, l = Line.I a b) ∨ ∃ a b, l = Line.O a b) ∧
      (∀ n, Line.D n ∉ body) ∧
      (nod.val.isSome = true → tdepth nod = nod.d + 1) ∧
      (nod.val = none → tdepth nod = 0 ∧ nod.d = 0) := by
  revert ht hd
  rw [mainRun]
  split
  · exact fun ht _ => Option.noConfusion ht
  · rename_i ld hload
    dsimp only
    split
    · exact fun ht _ => Option.noConfusion ht
    · split
      · exact fun ht _ => Option.noConfusion ht
      · rename_i ind via0 hnams
        split
        · exact fun ht _ => Option.noConfusion ht
        · split
          · exact fun ht _ => Option.noConfusion ht
          · split
            · exact fun ht _ => Option.noConfusion ht
            · rename_i hindne hdep p nod0 st0 hbld
              split
              · rename_i hchk
                exact fun _ hd => absurd hd hchk
              · intro ht hd
                have hnod : nod0 = nod := Option.some.inj ht
                subst hnod
                have hwf : WfN nod0 :=
                  (nodBldF_wf _ _ _ _ _ _ _
                    (fun b hb => absurd hb (List.not_mem_nil b)) hbld).1
                refine ⟨ind.map (fun v => Line.I v.nam v.sym) ++
                  oLines ld.infs,
                  (outRun (3 * (ind.length + 2) + 3) (.nod nod0)
                    (OutSt.mk [] 1 [])).2 ++ [Line.L 0],
                  by simp, ?_, ?_, ?_,
                  (wfn_tdepth hwf).1, (wfn_tdepth hwf).2⟩
                · intro hemp
                  rcases List.append_eq_nil.mp hemp with ⟨hmap, -⟩
                  exact absurd (List.map_eq_nil.mp hmap) hindne
                · intro l hl
                  rcases List.mem_append.mp hl with h | h
                  · rcases List.mem_map.mp h with ⟨v, -, rfl⟩
                    exact .inl ⟨_, _, rfl⟩
                  · exact .inr (oLines_O ld.infs l h)
                · intro n hn
                  rcases List.mem_append.mp hn with h | h
                  · exact outRun_no_D _ _ _ n h
                  · rcases List.mem_cons.mp h with h | h
                    · exact Line.noConfusion h
                    · exact absurd h (List.not_mem_nil _)

/-- C3 counterexample: on the claim's own example `@A,B` / `x,1` /
`y,2`, the first output line is `I,B,1` (the header is printed after
the `I`/`O` block), and the header is `D,1` — the worst-case path tests
`B` once — not the claimed `D,2`. -/
theorem C3_counterexample :
    (mainRun [c3Rows] false).out =
      [Line.I [66] [49], Line.I [66] [50], Line.O [65] [120],
       Line.O [65] [121], Line.D 1, Line.T [66] [49] 1, Line.L 2,
       Line.R [65] [121], Line.J 0, Line.L 1, Line.R [65] [120],
       Line.J 0, Line.L 0] ∧
    (mainRun [c3Rows] false).out.head? ≠ some (Line.D 2) ∧
    Line.D 2 ∉ (mainRun [c3Rows] false).out := by
  decide

/-- Witness for C3 (amended) at the example input: the run succeeds
with root `nodC3` and the header facts follow from the theorem. -/
theorem C3_depth_header_witness :
    (mainRun [c3Rows] false).tree = some nodC3 ∧
    (mainRun [c3Rows] false).diags = [] ∧
    ∃ pre body,
      (mainRun [c3Rows] false).out =
        pre ++ Line.D (nodC3.d + 1) :: body ∧
      pre ≠ [] ∧
      (∀ l ∈ pre, (∃ a b, l = Line.I a b) ∨ ∃ a b, l = Line.O a b) ∧
      (∀ n, Line.D n ∉ body) ∧
      (nodC3.val.isSome = true → tdepth nodC3 = nodC3.d + 1) ∧
      (nodC3.val = none → tdepth nodC3 = 0 ∧ nodC3.d = 0) :=
  ⟨rfl, rfl, C3_depth_header [c3Rows] false nodC3 rfl rfl⟩

/-! ## Claim C7 — unresolvable diagnostics -/

/-- `infsChk` reports every ordered pair of inferences in one bucket
whose conclusions share a name but not a value. -/
theorem infsChk_pair : ∀ (l : List Inf) (i j : Inf),
    List.Sublist [i, j] l → i.val.nam = j.val.nam → i.val ≠ j.val →
    Diag.unresolvable i.val.nam i.val.sym i.fil i.row j.val.sym j.fil
      j.row ∈ infsChk l
  | [], i, j, hs, _, _ => by cases hs
  | x :: rest, i, j, hs, hnam, hne => by
    rw [infsChk]
    cases hs with
    | cons _ h2 =>
      exact List.mem_append.mpr (.inr (infsChk_pair rest i j h2 hnam hne))
    | cons₂ _ h2 =>
      refine List.mem_append.mpr (.inl (List.mem_map.mpr
        ⟨j, List.mem_filter.mpr ⟨h2.subset (List.mem_singleton.mpr rfl),
          ?_⟩, rfl⟩))
      simp only [Bool.and_eq_true, decide_eq_true_eq]
      exact ⟨hnam, hne⟩

/-- `nodChkF` checks both buckets of every node it visits. -/
theorem nodChkF_covers : ∀ (fuel : Nat) (nod x : Nod) (d : Diag),
    x ∈ nodesF fuel nod →
    d ∈ infsChk (x.infsV.getD []) ∨ d ∈ infsChk (x.infsO.getD []) →
    d ∈ nodChkF fuel nod
  | 0, nod, x, d, hx, _ => absurd hx (List.not_mem_nil x)
  | fuel + 1, .mk id v iV iO nV nO dp, x, d, hx, hd => by
    rw [nodesF] at hx
    simp only [nodChkF]
    rcases List.mem_cons.mp hx with rfl | hx
    · rcases hd with hd | hd
      · exact List.mem_append.mpr (.inl (List.mem_append.mpr (.inl
          (List.mem_append.mpr (.inl hd)))))
      · exact List.mem_append.mpr (.inl (List.mem_append.mpr (.inl
          (List.mem_append.mpr (.inr hd)))))
    · rcases List.mem_append.mp hx with hx | hx
      · cases hnV : nV with
        | none => rw [hnV] at hx; exact absurd hx (List.not_mem_nil x)
        | some a =>
          rw [hnV] at hx
          exact List.mem_append.mpr (.inl (List.mem_append.mpr (.inr
            (nodChkF_covers fuel a x d hx hd))))
      · cases hnO : nO with
        | none => rw [hnO] at hx; exact absurd hx (List.not_mem_nil x)
        | some b =>
          rw [hnO] at hx
          exact List.mem_append.mpr (.inr
            (nodChkF_covers fuel b x d hx hd))

/-- C7: a bucket of any visited node holding two inferences with equal
conclusion names but different conclusion values yields an unresolvable
diagnostic citing both sources; and whenever a run that built a tree
reports any diagnostics, its diagnostics are exactly the checker's
output and the printed output holds only `I` and `O` lines — no
pseudocode listing (no `D`/`T`/`R`/`L`/`J` lines). -/
theorem C7_unresolvable :
    (∀ (fuel : Nat) (nod x : Nod) (i j : Inf) (l : List Inf),
      x ∈ nodesF fuel nod →
      (l = x.infsV.getD [] ∨ l = x.infsO.getD []) →
      List.Sublist [i, j] l → i.val.nam = j.val.nam → i.val ≠ j.val →
      Diag.unresolvable i.val.nam i.val.sym i.fil i.row j.val.sym j.fil
        j.row ∈ nodChkF fuel nod) ∧
    (∀ (files : List (List (List Sym))) (q : Bool) (nod : Nod),
      (mainRun files q).tree = some nod →
      (∃ fuel, (mainRun files q).diags = nodChkF fuel nod) ∧
      ((mainRun files q).diags ≠ [] →
        ∀ l ∈ (mainRun files q).out,
          (∃ a b, l = Line.I a b) ∨ ∃ a b, l = Line.O a b)) := by
  constructor
  · intro fuel nod x i j l hx hl hs hnam hne
    refine nodChkF_covers fuel nod x _ hx ?_
    rcases hl with rfl | rfl
    · exact .inl (infsChk_pair _ i j hs hnam hne)
    · exact .inr (infsChk_pair _ i j hs hnam hne)
  · intro files q nod
    revert nod
    rw [mainRun]
    split
    · exact fun nod ht => Option.noConfusion ht
    · rename_i ld hload
      dsimp only
      split
      · exact fun nod ht => Option.noConfusion ht
      · split
        · exact fun nod ht => Option.noConfusion ht
        · rename_i ind via0 hnams
          split
          · exact fun nod ht => Option.noConfusion ht
          · split
            · exact fun nod ht => Option.noConfusion ht
            · split
              · exact fun nod ht => Option.noConfusion ht
              · rename_i hindne hdep p nod0 st0 hbld
                split
                · rename_i hchk
                  intro nod ht
                  cases Option.some.inj ht
                  refine ⟨⟨ind.length + 2, rfl⟩, fun _ l hl => ?_⟩
                  rcases List.mem_append.mp hl with h | h
                  · rcases List.mem_map.mp h with ⟨v, -, rfl⟩
                    exact .inl ⟨_, _, rfl⟩
                  · exact .inr (oLines_O ld.infs l h)
                · rename_i hchk
                  intro nod ht
                  cases Option.some.inj ht
                  push_neg at hchk
                  exact ⟨⟨ind.length + 2, hchk.symm⟩,
                    fun hne => absurd rfl hne⟩

/-- Witness for C7: on `@F,K` / `a,1` / `b,1` / `a,0` the root's
`infsO` bucket holds the conflicting pair, the checker reports it with
both source rows, and the run's output is the `I`/`O` block alone. -/
theorem C7_unresolvable_witness :
    Diag.unresolvable [70] [97] 0 2 [98] 0 3 ∈ nodChkF 1 nodC7 ∧
    (∃ fuel, (mainRun [c7Rows] false).diags = nodChkF fuel nodC7) ∧
    ((mainRun [c7Rows] false).diags ≠ [] →
      ∀ l ∈ (mainRun [c7Rows] false).out,
        (∃ a b, l = Line.I a b) ∨ ∃ a b, l = Line.O a b) := by
  refine ⟨?_, (C7_unresolvable.2 [c7Rows] false nodC7 rfl).1,
    (C7_unresolvable.2 [c7Rows] false nodC7 rfl).2⟩
  exact C7_unresolvable.1 1 nodC7 nodC7
    (Inf.mk (Val.mk [70] [97]) [Val.mk [75] [49]] 0 2)
    (Inf.mk (Val.mk [70] [98]) [Val.mk [75] [49]] 0 3)
    [Inf.mk (Val.mk [70] [97]) [Val.mk [75] [49]] 0 2,
      Inf.mk (Val.mk [70] [98]) [Val.mk [75] [49]] 0 3]
    (List.mem_cons_self _ _) (.inr rfl) (List.Sublist.refl _)
    (by decide) (by decide)

/-! ## Claim C1 — optimality of the candidate loop (non-quick mode) -/

/-- Shape of a candidate's recorded outcome: an over-bound record
really exceeded its bound, and an installed node bears a test. -/
theorem candStep_out {g : Graph} {tf : Nat}
    {child : List Val → List Inf → Nat → BSt → Option (Nod × BSt)}
    {vals : List Val} {infs : List Inf} {bd : Nat} {c : Val} {st : BSt}
    {out : COut} {st2 : BSt}
    (h : candStep g tf child vals infs bd c st = some (out, st2)) :
    (∀ d b, out = COut.overBound d b → b < d) ∧
    (∀ n, out = COut.ok n → n.val.isSome = true ∧ n.d ≤ bd) := by
  simp only [candStep] at h
  simp only [bind_eq_some] at h
  obtain ⟨iV, hiV, h⟩ := h
  obtain ⟨iO, hiO, h⟩ := h
  obtain ⟨dV, hdV, h⟩ := h
  repeat' split at h
  all_goals
    first
    | (simp only [Option.pure_def, Option.some.injEq, Prod.mk.injEq] at h
       obtain ⟨rfl, rfl⟩ := h
       exact ⟨fun d b hb => COut.noConfusion hb,
         fun n hn => COut.noConfusion hn⟩)
    | (simp only [bind_eq_some] at h
       obtain ⟨pV, hpV, h⟩ := h
       obtain ⟨pO, hpO, h⟩ := h
       split at h
       · simp only [Option.pure_def, Option.some.injEq,
           Prod.mk.injEq] at h
         obtain ⟨rfl, rfl⟩ := h
         exact ⟨fun d b hb => COut.noConfusion hb,
           fun n hn => COut.noConfusion hn⟩
       · rename_i d hdc
         split at h
         · rename_i hgt
           simp only [Option.pure_def, Option.some.injEq,
             Prod.mk.injEq] at h
           obtain ⟨rfl, rfl⟩ := h
           refine ⟨fun d2 b2 hb => ?_, fun n hn => COut.noConfusion hn⟩
           obtain ⟨rfl, rfl⟩ :=
            (show d = d2 ∧ bd = b2 from COut.overBound.inj hb)
           exact hgt
         · rename_i hng
           simp only [Option.pure_def, Option.some.injEq,
             Prod.mk.injEq] at h
           obtain ⟨rfl, rfl⟩ := h
           refine ⟨fun d2 b2 hb => COut.noConfusion hb, fun n hn => ?_⟩
           cases COut.ok.inj hn
           exact ⟨rfl, Nat.le_of_not_lt hng⟩)

/-- The candidate loop of `nodBld` in non-quick mode: the returned node
is at least as shallow as every candidate that produced a node, it is
either the incoming `best` or one of the recorded candidates, every
over-bound skip really exceeded its running bound, and every candidate
was recorded unless a zero-depth candidate ended the search. -/
theorem nodBldGo_min (g : Graph) (tf : Nat)
    (child : List Val → List Inf → Nat → BSt → Option (Nod × BSt))
    (vals : List Val) (infs : List Inf) :
    ∀ (cands : List Val) (best : Nod) (bd : Nat) (st : BSt) (r : Nod)
      (st2 : BSt) (tr : List COut),
      nodBldGo g tf child vals infs false cands best bd st =
        some (r, st2, tr) →
      (r = best ∨ COut.ok r ∈ tr) ∧
      (best.val.isSome = true → r.d ≤ best.d) ∧
      (∀ n, COut.ok n ∈ tr → r.d ≤ n.d) ∧
      (∀ d b, COut.overBound d b ∈ tr → b < d) ∧
      (tr.length = cands.length ∨ r.d = 0)
  | [], best, bd, st, r, st2, tr, h => by
    rw [nodBldGo] at h
    simp only [Option.some.injEq, Prod.mk.injEq] at h
    obtain ⟨rfl, rfl, rfl⟩ := h
    exact ⟨.inl rfl, fun _ => Nat.le_refl _,
      fun n hn => absurd hn (List.not_mem_nil _),
      fun d b hb => absurd hb (List.not_mem_nil _), .inl rfl⟩
  | c :: rest, best, bd, st, r, st2, tr, h => by
    rw [nodBldGo] at h
    simp only [bind_eq_some] at h
    obtain ⟨⟨out, stm⟩, hcs, h⟩ := h
    have hout := candStep_out hcs
    cases out with
    | ok r0 =>
      have hr0v := (hout.2 r0 rfl).1
      simp only at h
      split at h
      · rename_i hacc
        split at h
        · rename_i hz
          simp only [Option.some.injEq, Prod.mk.injEq] at h
          obtain ⟨rfl, rfl, rfl⟩ := h
          refine ⟨.inr (List.mem_singleton.mpr rfl), fun hbv => ?_,
            fun n hn => ?_, fun d b hb => ?_, .inr ?_⟩
          · rcases hacc with hnone | hlt
            · rw [hnone] at hbv
              exact Bool.noConfusion hbv
            · exact Nat.le_of_lt hlt
          · cases COut.ok.inj (List.mem_singleton.mp hn)
            exact Nat.le_refl _
          · exact COut.noConfusion (List.mem_singleton.mp hb)
          · rcases hz with hf | h0
            · exact Bool.noConfusion hf
            · exact h0
        · rcases Option.map_eq_some'.mp h with ⟨⟨r1, st3, tr3⟩, hgo, hp⟩
          cases hp
          obtain ⟨ih1, ih2, ih3, ih4, ih5⟩ :=
            nodBldGo_min g tf child vals infs rest r0 r0.d stm r1 st3
              tr3 hgo
          have hle : r1.d ≤ r0.d := ih2 hr0v
          refine ⟨.inr ?_, fun hbv => ?_, fun n hn => ?_,
            fun d b hb => ?_, ?_⟩
          · rcases ih1 with rfl | hm
            · exact List.mem_cons_self _ _
            · exact List.mem_cons_of_mem _ hm
          · rcases hacc with hnone | hlt
            · rw [hnone] at hbv
              exact Bool.noConfusion hbv
            · exact Nat.le_trans hle (Nat.le_of_lt hlt)
          · rcases List.mem_cons.mp hn with he | hn2
            · cases COut.ok.inj he
              exact hle
            · exact ih3 n hn2
          · rcases List.mem_cons.mp hb with he | hb2
            · exact COut.noConfusion he
            · exact ih4 d b hb2
          · rcases ih5 with he | h0
            · exact .inl (by simp [he])
            · exact .inr h0
      · rename_i hrej
        rcases Option.map_eq_some'.mp h with ⟨⟨r1, st3, tr3⟩, hgo, hp⟩
        cases hp
        obtain ⟨ih1, ih2, ih3, ih4, ih5⟩ :=
          nodBldGo_min g tf child vals infs rest best bd stm r1 st3
            tr3 hgo
        push_neg at hrej
        have hbv : best.val.isSome = true :=
          Option.ne_none_iff_isSome.mp hrej.1
        have hbd : best.d ≤ r0.d := hrej.2
        refine ⟨?_, fun _ => ih2 hbv, fun n hn => ?_, fun d b hb => ?_,
          ?_⟩
        · rcases ih1 with rfl | hm
          · exact .inl rfl
          · exact .inr (List.mem_cons_of_mem _ hm)
        · rcases List.mem_cons.mp hn with he | hn2
          · cases COut.ok.inj he
            exact Nat.le_trans (ih2 hbv) hbd
          · exact ih3 n hn2
        · rcases List.mem_cons.mp hb with he | hb2
          · exact COut.noConfusion he
          · exact ih4 d b hb2
        · rcases ih5 with he | h0
          · exact .inl (by simp [he])
          · exact .inr h0
    | emptyFrontier =>
      simp only at h
      rcases Option.map_eq_some'.mp h with ⟨⟨r1, st3, tr3⟩, hgo, hp⟩
      cases hp
      obtain ⟨ih1, ih2, ih3, ih4, ih5⟩ :=
        nodBldGo_min g tf child vals infs rest best bd stm r1 st3 tr3
          hgo
      refine ⟨?_, ih2, fun n hn => ?_, fun d b hb => ?_, ?_⟩
      · rcases ih1 with rfl | hm
        · exact .inl rfl
        · exact .inr (List.mem_cons_of_mem _ hm)
      · rcases List.mem_cons.mp hn with he | hn2
        · exact COut.noConfusion he
        · exact ih3 n hn2
      · rcases List.mem_cons.mp hb with he | hb2
        · exact COut.noConfusion he
        · exact ih4 d b hb2
      · rcases ih5 with he | h0
        · exact .inl (by simp [he])
        · exact .inr h0
    | noTestChild =>
      simp only at h
      rcases Option.map_eq_some'.mp h with ⟨⟨r1, st3, tr3⟩, hgo, hp⟩
      cases hp
      obtain ⟨ih1, ih2, ih3, ih4, ih5⟩ :=
        nodBldGo_min g tf child vals infs rest best bd stm r1 st3 tr3
          hgo
      refine ⟨?_, ih2, fun n hn => ?_, fun d b hb => ?_, ?_⟩
      · rcases ih1 with rfl | hm
        · exact .inl rfl
        · exact .inr (List.mem_cons_of_mem _ hm)
      · rcases List.mem_cons.mp hn with he | hn2
        · exact COut.noConfusion he
        · exact ih3 n hn2
      · rcases List.mem_cons.mp hb with he | hb2
        · exact COut.noConfusion he
        · exact ih4 d b hb2
      · rcases ih5 with he | h0
        · exact .inl (by simp [he])
        · exact .inr h0
    | overBound d0 b0 =>
      simp only at h
      rcases Option.map_eq_some'.mp h with ⟨⟨r1, st3, tr3⟩, hgo, hp⟩
      cases hp
      obtain ⟨ih1, ih2, ih3, ih4, ih5⟩ :=
        nodBldGo_min g tf child vals infs rest best bd stm r1 st3 tr3
          hgo
      refine ⟨?_, ih2, fun n hn => ?_, fun d b hb => ?_, ?_⟩
      · rcases ih1 with rfl | hm
        · exact .inl rfl
        · exact .inr (List.mem_cons_of_mem _ hm)
      · rcases List.mem_cons.mp hn with he | hn2
        · exact COut.noConfusion he
        · exact ih3 n hn2
      · rcases List.mem_cons.mp hb with he | hb2
        · exact hout.1 d b he.symm
        · exact ih4 d b hb2
      · rcases ih5 with he | h0
        · exact .inl (by simp [he])
        · exact .inr h0

theorem setInfsV_d (n : Nod) (l : List Inf) : (n.setInfsV l).d = n.d := by
  cases n
  rfl

theorem setInfsV_val (n : Nod) (l : List Inf) :
    (n.setInfsV l).val = n.val := by
  cases n
  rfl

/-- C1: in non-quick mode, on every frontier the builder evaluates
fresh (no memoization hit), the returned node's depth is a minimum over
all recorded candidate outcomes: no candidate that produced a node did
better, the returned node is one of them whenever it bears a test,
every over-bound skip really exceeded its running bound (the other
skips being exactly the empty-child-frontier and no-test-child rules
recorded in the trace), and every candidate of `vals` was evaluated
unless a zero-depth — globally minimal — candidate ended the search
early. -/
theorem C1_nodBld_min (g : Graph) (tf : Nat) (fuel : Nat)
    (vals : List Val) (infs : List Inf) (bd : Nat) (st : BSt)
    (r : Nod) (st2 : BSt)
    (hmiss : bldsFnd st.blds vals infs = none)
    (h : nodBldF g tf (fuel + 1) vals infs bd false st = some (r, st2)) :
    ∃ (r0 : Nod) (st0 : BSt) (tr : List COut),
      nodBldGo g tf (fun v i b s => nodBldF g tf fuel v i b false s)
        vals infs false
        (sortBy (fun a b => valsInfsCmp g a b ≠ .gt) vals)
        (emptyNod st.ctr) bd (BSt.mk st.blds (st.ctr + 1)) =
        some (r0, st0, tr) ∧
      r.d = r0.d ∧ r.val = r0.val ∧
      (r.val.isSome = true → COut.ok r0 ∈ tr ∧ r = r0) ∧
      (∀ n, COut.ok n ∈ tr → r.d ≤ n.d) ∧
      (∀ d b, COut.overBound d b ∈ tr → b < d) ∧
      (tr.length = vals.length ∨ r.d = 0) := by
  rw [nodBldF] at h
  split at h
  · rename_i nod hfnd
    rw [hmiss] at hfnd
    exact Option.noConfusion hfnd
  · dsimp only at h
    split at h
    · exact Option.noConfusion h
    · rename_i p r0 st0 tr0 hgo
      simp only [Option.some.injEq, Prod.mk.injEq] at h
      obtain ⟨rfl, rfl⟩ := h
      obtain ⟨m1, m2, m3, m4, m5⟩ :=
        nodBldGo_min g tf _ vals infs _ _ _ _ r0 st0 tr0 hgo
      refine ⟨r0, st0, tr0, hgo, ?_, ?_, ?_, ?_, m4, ?_⟩
      · split
        · exact setInfsV_d r0 infs
        · rfl
      · split
        · rename_i hvn
          rw [setInfsV_val r0 infs, hvn]
        · rfl
      · split
        · rename_i hvn
          intro hs
          rw [setInfsV_val r0 infs, hvn] at hs
          exact Bool.noConfusion hs
        · intro hs
          rcases m1 with rfl | hm
          · exact Bool.noConfusion hs
          · exact ⟨hm, rfl⟩
      · intro n hn
        have := m3 n hn
        split
        · rw [setInfsV_d r0 infs]
          exact this
        · exact this
      · rcases m5 with he | h0
        · exact .inl (he.trans (sortBy_perm _ vals).length_eq)
        · refine .inr ?_
          split
          · rw [setInfsV_d r0 infs]
            exact h0
          · exact h0

/-- Witness for C1 on the acyclic instance: testing `P=1` first yields
a depth-0 node, recorded as the only (and minimal) candidate. -/
theorem C1_nodBld_min_witness :
    ∃ (r0 : Nod) (st0 : BSt) (tr : List COut),
      nodBldGo w9g 2 (fun v i b s => nodBldF w9g 2 2 v i b false s)
        [w9P1, w9P2] w9infs false
        (sortBy (fun a b => valsInfsCmp w9g a b ≠ .gt) [w9P1, w9P2])
        (emptyNod 0) 2 (BSt.mk [] 1) = some (r0, st0, tr) ∧
      nodW1.d = r0.d ∧ nodW1.val = r0.val ∧
      (nodW1.val.isSome = true → COut.ok r0 ∈ tr ∧ nodW1 = r0) ∧
      (∀ n, COut.ok n ∈ tr → nodW1.d ≤ n.d) ∧
      (∀ d b, COut.overBound d b ∈ tr → b < d) ∧
      (tr.length = ([w9P1, w9P2] : List Val).length ∨ nodW1.d = 0) :=
  C1_nodBld_min w9g 2 2 [w9P1, w9P2] w9infs 2 (BSt.mk [] 0) nodW1
    (BSt.mk [([w9P1, w9P2], w9infs, nodW1)] 2) rfl rfl

end DTC
